import Mathlib

/-!
Verification development for `src/debugger/sourceMap.ts` (class `SourceMapUtil`
and its regular expressions).  The TypeScript code is embedded shallowly:

* strings are `String` / `List Char`;
* the three regular expressions of the file
  (`SourceMapURLGlobalRegex = /\/\/(#|@) sourceMappingURL=((?!data:).+?)\s*$/gm`,
  `SourceMapURLRegex` = same without `g`, and
  `SourceURLRegex = /^\/\/[#@] ?sourceURL=(.+)$/m`)
  are embedded as dedicated executable matchers that implement the
  JavaScript regex semantics for these particular patterns (multiline anchors,
  lazy quantifier with backtracking, negative lookahead, JS whitespace class);
* Node's `path` module is modelled for the POSIX build (`path.sep = "/"`),
  with `process.cwd()` passed around as an explicit `cwd` argument where
  `path.relative` needs it;
* Node's legacy `url.parse` / `url.format` are modelled for the fragment of
  behaviour the file exercises (protocol, `//` slashes, host, pathname,
  search, hash, the slashed-protocol default pathname, and `href` being the
  re-format of the parsed object);
* `JSON.parse` / `JSON.stringify` are JavaScript builtins, so the orchestrator
  `updateSourceMapFile` is parameterised over them, a parse failure
  (exception) being `none`;
* the two flattening collaborators (`flatten-source-map` and
  `SourceMapsCombinator.convert`, the latter living in a repository file that
  is not part of the sources here) are injected as function parameters, with
  a spec-modelled instance where a concrete value is needed.
-/

/-- JavaScript line terminators (ECMA-262 LineTerminator): LF, CR, LS, PS.
These are the positions at which the multiline anchors match and the
characters that `.` does not match. -/
def isLineTerminator (c : Char) : Bool :=
  c = '\n' || c = '\r' || c = Char.ofNat 0x2028 || c = Char.ofNat 0x2029

/-- The JavaScript `\s` class (ECMA-262 WhiteSpace and LineTerminator). -/
def isJsWhitespace (c : Char) : Bool :=
  c = ' ' || c = '\t' || c = '\n' || c = '\r' ||
  c = Char.ofNat 0x0B || c = Char.ofNat 0x0C || c = Char.ofNat 0x00A0 ||
  c = Char.ofNat 0x1680 || (0x2000 ≤ c.toNat && c.toNat ≤ 0x200A) ||
  c = Char.ofNat 0x2028 || c = Char.ofNat 0x2029 || c = Char.ofNat 0x202F ||
  c = Char.ofNat 0x205F || c = Char.ofNat 0x3000 || c = Char.ofNat 0xFEFF

/-- Split a character list at every character satisfying `p`; the separators
are dropped and empty pieces are kept (`splitOnPred p []` is `[[]]`, like
JavaScript's `"".split`). -/
def splitOnPred (p : Char → Bool) : List Char → List (List Char)
  | [] => [[]]
  | c :: cs =>
    if p c then [] :: splitOnPred p cs
    else
      match splitOnPred p cs with
      | [] => [[c]]
      | l :: ls => (c :: l) :: ls

/-- The lines of a script body in the sense of the multiline regex flags:
pieces between JavaScript line terminators. -/
def splitLinesChars (l : List Char) : List (List Char) :=
  splitOnPred isLineTerminator l

/-- Match `//(#|@) sourceMappingURL=` at the head of `l`, returning the
21 matched characters and the remainder. -/
def sourceMapMarkerAt (l : List Char) : Option (List Char × List Char) :=
  if ("//# sourceMappingURL=".data).isPrefixOf l then
    some ("//# sourceMappingURL=".data, l.drop 21)
  else if ("//@ sourceMappingURL=".data).isPrefixOf l then
    some ("//@ sourceMappingURL=".data, l.drop 21)
  else none

/-- The text captured by the lazy group `((?!data:).+?)` when followed by
`\s*$`: the shortest non-empty prefix of the rest of the line whose
complement up to the end of the line is entirely whitespace.  This mirrors
the engine's preference order: the lazy `+?` grows one character at a time
and only on failure of the greedy-then-backtracking `\s*$` tail.
`acc` holds the (reversed) characters taken so far. -/
def lazyMatchValue (acc : List Char) : List Char → Option (List Char)
  | [] => none
  | c :: cs =>
    if cs.all isJsWhitespace then some ((c :: acc).reverse)
    else lazyMatchValue (c :: acc) cs

/-- Scan one terminator-free line for the first position where
`//(#|@) sourceMappingURL=((?!data:).+?)\s*$` matches, returning the captured
group.  A marker whose remainder is empty or begins with `data:` fails there
and the engine resumes the scan one character further on, exactly as the
backtracking matcher does. -/
def lineSourceMapValue : List Char → Option (List Char)
  | [] => none
  | c :: cs =>
    match sourceMapMarkerAt (c :: cs) with
    | some (_, rest) =>
      if (!rest.isEmpty) && !(("data:".data).isPrefixOf rest) then
        lazyMatchValue [] rest
      else lineSourceMapValue cs
    | none => lineSourceMapValue cs

/-- Character-level core of `SourceMapUtil.getSourceMapRelativeUrl`.

The source matches `body` against the global multiline regex, takes the last
element of the match list and re-matches it against the single-match regex to
extract group 2.  Because a match never extends past the end of its line
(`.` excludes terminators and `\s*$` can only consume whitespace up to a
line-end position) and at most one match occurs per line, the match list is
exactly the per-line list of captures in document order; re-matching the last
matched text re-extracts the same capture, since the matched text starts with
the marker and its capture followed only by whitespace. -/
def getSourceMapRelativeUrlChars (body : List Char) : Option (List Char) :=
  ((splitLinesChars body).filterMap lineSourceMapValue).getLast?

/-- `SourceMapUtil.getSourceMapRelativeUrl`: the capture of the last match of
`SourceMapURLGlobalRegex` in the body, if any. -/
def getSourceMapRelativeUrl (body : String) : Option String :=
  (getSourceMapRelativeUrlChars body.data).map List.asString

/-- Remove trailing JavaScript whitespace. -/
def trimTrailingWs (l : List Char) : List Char :=
  (l.reverse.dropWhile isJsWhitespace).reverse

/-- Remove leading JavaScript whitespace. -/
def trimLeadingWs (l : List Char) : List Char :=
  l.dropWhile isJsWhitespace

/-- Claim-side value extraction following claim C2's words as stated: the
text after the marker with surrounding (leading and trailing) whitespace
trimmed. -/
def specLineValueSurroundTrimmed : List Char → Option (List Char)
  | [] => none
  | c :: cs =>
    match sourceMapMarkerAt (c :: cs) with
    | some (_, rest) =>
      if (!rest.isEmpty) && !(("data:".data).isPrefixOf rest) then
        some (trimLeadingWs (trimTrailingWs rest))
      else specLineValueSurroundTrimmed cs
    | none => specLineValueSurroundTrimmed cs

/-- Claim C2 as stated: last match in document order, value trimmed of
surrounding whitespace. -/
def specSurroundTrimmedLastUrl (body : String) : Option String :=
  (((splitLinesChars body.data).filterMap specLineValueSurroundTrimmed).getLast?).map
    List.asString

/-- Claim-side value extraction of the amended claim C2: only trailing
whitespace is trimmed from the text after the marker; a remainder consisting
entirely of whitespace yields its first character (forced by the lazy `.+?`,
which must consume at least one character). -/
def specLineValueAmended : List Char → Option (List Char)
  | [] => none
  | c :: cs =>
    match sourceMapMarkerAt (c :: cs) with
    | some (_, rest) =>
      if (!rest.isEmpty) && !(("data:".data).isPrefixOf rest) then
        if (trimTrailingWs rest).isEmpty then some (rest.take 1)
        else some (trimTrailingWs rest)
      else specLineValueAmended cs
    | none => specLineValueAmended cs

/-- The amended claim C2: among the lines carrying a qualifying
`sourceMappingURL` comment, the last one governs, and its value is the text
after the marker with trailing whitespace trimmed. -/
def specAmendedLastUrl (body : String) : Option String :=
  (((splitLinesChars body.data).filterMap specLineValueAmended).getLast?).map
    List.asString

/-! Model of Node's POSIX `path` module (`path.sep = "/"`), restricted to the
primitives the source uses: `path.posix.join`, `path.relative`,
`path.basename`.  `path.relative` resolves its arguments against the process
working directory, which the model threads through as an explicit `cwd`
argument. -/

/-- Join path segments with a single slash (no normalization). -/
def joinSegs : List (List Char) → List Char
  | [] => []
  | s :: rest =>
    match rest with
    | [] => s
    | _ :: _ => s ++ '/' :: joinSegs rest

/-- Core of Node's `normalizeString`: process segments left to right against
a (reversed) output stack; empty and `.` segments are dropped, `..` pops a
non-`..` top, stacks on a `..` top, and on an empty stack is kept only when
`allowAbove` (relative paths) and dropped otherwise (absolute paths). -/
def normAcc (allowAbove : Bool) : List (List Char) → List (List Char) → List (List Char)
  | acc, [] => acc
  | acc, s :: rest =>
    if s = [] || s = ['.'] then normAcc allowAbove acc rest
    else if s = ['.', '.'] then
      match acc with
      | [] =>
        if allowAbove then normAcc allowAbove [['.', '.']] rest
        else normAcc allowAbove [] rest
      | a :: as =>
        if a = ['.', '.'] then normAcc allowAbove (s :: acc) rest
        else normAcc allowAbove as rest
    else normAcc allowAbove (s :: acc) rest

/-- Normalized segment list of a path. -/
def normSegs (allowAbove : Bool) (segs : List (List Char)) : List (List Char) :=
  (normAcc allowAbove [] segs).reverse

/-- Whether a character list denotes an absolute POSIX path. -/
def isAbsChars (l : List Char) : Bool := l.head? = some '/'

/-- Segment list of `path.posix.resolve(p)` run with working directory `cwd`:
a non-absolute `p` is appended to `cwd`, and the result is normalized with
`..` above the root dropped. -/
def resolveSegs (cwd p : List Char) : List (List Char) :=
  normSegs false (splitOnPred (fun c => c = '/') (if isAbsChars p then p else cwd ++ '/' :: p))

/-- Drop the longest common prefix of two segment lists, returning the two
remainders. -/
def stripCommon : List (List Char) → List (List Char) → List (List Char) × List (List Char)
  | x :: xs, y :: ys => if x = y then stripCommon xs ys else (x :: xs, y :: ys)
  | xs, ys => (xs, ys)

/-- Node's `path.posix.relative(fromP, toP)` with working directory `cwd`:
both arguments are resolved, their common prefix elided, and the remainder of
`fromP` replaced by `..` segments. -/
def posixRelativeChars (cwd fromP toP : List Char) : List Char :=
  if fromP = toP then []
  else
    let fs := resolveSegs cwd fromP
    let ts := resolveSegs cwd toP
    if fs = ts then []
    else
      let r := stripCommon fs ts
      joinSegs (List.replicate r.1.length ['.', '.'] ++ r.2)

/-- Node's `path.posix.normalize`. -/
def posixNormalizeChars (p : List Char) : List Char :=
  if p.isEmpty then ['.']
  else
    let abs := isAbsChars p
    let trail := p.getLast? = some '/'
    let core := joinSegs (normSegs (!abs) (splitOnPred (fun c => c = '/') p))
    let core2 := if core.isEmpty && !abs then ['.'] else core
    let core3 := if (!core2.isEmpty) && trail then core2 ++ ['/'] else core2
    if abs then '/' :: core3 else core3

/-- Node's `path.posix.join`: concatenate the non-empty fragments with `/`
and normalize; with no non-empty fragment the result is `"."`. -/
def posixJoinChars (parts : List (List Char)) : List Char :=
  match parts.filter (fun s => !s.isEmpty) with
  | [] => ['.']
  | l => posixNormalizeChars (joinSegs l)

/-- Node's `path.posix.basename` (one-argument form): trailing slashes are
skipped, then the final slash-free run is returned. -/
def posixBasenameChars (p : List Char) : List Char :=
  let r := p.reverse.dropWhile (fun c => c = '/')
  (r.takeWhile (fun c => c ≠ '/')).reverse

/-- `SourceMapUtil.makeUnixStylePath` on the POSIX platform: split on
`path.sep` (which is `/`) and `path.posix.join` the fragments. -/
def makeUnixStylePathChars (p : List Char) : List Char :=
  posixJoinChars (splitOnPred (fun c => c = '/') p)

/-- String wrapper for `SourceMapUtil.makeUnixStylePath`. -/
def makeUnixStylePath (p : String) : String :=
  (makeUnixStylePathChars p.data).asString

/-- JavaScript `String.prototype.replace` with a string pattern: only the
first occurrence of `pat` (anywhere in the string) is replaced.  The `$`
substitution patterns of the replacement string are not modelled (the source
never passes one). -/
def replaceFirstChars (pat repl : List Char) : List Char → List Char
  | [] => if pat.isEmpty then repl else []
  | c :: cs =>
    if pat.isPrefixOf (c :: cs) then repl ++ (c :: cs).drop pat.length
    else c :: replaceFirstChars pat repl cs

/-- JavaScript truthiness of an optional string argument: absent (or
`undefined`) and the empty string are falsy. -/
def truthyStr : Option String → Bool
  | some s => !s.isEmpty
  | none => false

/-- `SourceMapUtil.updateSourceMapPath`.  When both packager roots are truthy
they are converted by `makeUnixStylePath` and the first occurrence of the
remote root inside `sourcePath` is replaced by the local root
(`String.prototype.replace` with a string pattern); then the path of the
result relative to `sourcesRootPath` is computed and converted to Unix
style.  `cwd` is the process working directory used by `path.relative`. -/
def updateSourceMapPath (cwd sourcePath sourcesRootPath : String)
    (packagerRemoteRoot packagerLocalRoot : Option String) : String :=
  let sp :=
    if truthyStr packagerRemoteRoot && truthyStr packagerLocalRoot then
      replaceFirstChars (makeUnixStylePathChars (packagerRemoteRoot.getD "").data)
        (makeUnixStylePathChars (packagerLocalRoot.getD "").data) sourcePath.data
    else sourcePath.data
  (makeUnixStylePathChars (posixRelativeChars cwd.data sourcesRootPath.data sp)).asString

/-! The IS_REMOTE regular expression and the source-map document model. -/

/-- The character class `[a-zA-z]` of `IS_REMOTE` exactly as written in the
source: the second range runs from uppercase `A` to lowercase `z` (character
codes 65 to 122), so it also contains the six punctuation characters between
`Z` and `a`. -/
def isRemoteClassChar (c : Char) : Bool :=
  ('a' ≤ c && c ≤ 'z') || ('A' ≤ c && c ≤ 'z')

/-- Character-level `IS_REMOTE.test`, for `/^[a-zA-z]{2,}:\/\//`.  The class
contains neither `:` nor `/`, so the greedy `{2,}` with backtracking accepts
exactly when the maximal leading run of class characters has length at least
two and is followed immediately by `://`. -/
def isRemoteTestChars (l : List Char) : Bool :=
  let run := l.takeWhile isRemoteClassChar
  decide (2 ≤ run.length) && ("://".data).isPrefixOf (l.drop run.length)

/-- `IS_REMOTE.test` on a string. -/
def isRemoteTest (s : String) : Bool := isRemoteTestChars s.data

/-- Claim-side pattern of claim C3 as stated: at least two ASCII letters
(`[A-Za-z]{2,}`) followed by `://`. -/
def specRemoteLetterChar (c : Char) : Bool :=
  ('A' ≤ c && c ≤ 'Z') || ('a' ≤ c && c ≤ 'z')

/-- Claim C3's remote pattern as stated (`^[A-Za-z]{2,}://`). -/
def specIsRemoteLetters (s : String) : Bool :=
  let run := s.data.takeWhile specRemoteLetterChar
  decide (2 ≤ run.length) && ("://".data).isPrefixOf (s.data.drop run.length)

/-- The amended claim C3's character class: any character with code between
65 (`A`) and 122 (`z`), the six punctuation characters included. -/
def specRemoteFixedChar (c : Char) : Bool :=
  'A' ≤ c && c ≤ 'z'

/-- The amended claim C3's remote pattern: at least two characters of the
65..122 class followed by `://`. -/
def specIsRemoteFixed (s : String) : Bool :=
  let run := s.data.takeWhile specRemoteFixedChar
  decide (2 ≤ run.length) && ("://".data).isPrefixOf (s.data.drop run.length)

/-- The `ISourceMap` document shape (the `RawSourceMap` fields of the
`source-map` package plus the optional `sections` extension).  A JavaScript
field that is absent or `null`/`undefined` is `none`.  A `sections` entry is
an offset `(line, column)` together with its optional nested map. -/
inductive SMapDoc where
  | mk :
      (version : Option Int) →
      (file : Option String) →
      (sourceRoot : Option String) →
      (sources : Option (List String)) →
      (names : Option (List String)) →
      (mappings : Option String) →
      (sourcesContent : Option (List String)) →
      (sections : Option (List (Int × Int × Option SMapDoc))) →
      SMapDoc

/-- Field accessor. -/
def SMapDoc.version : SMapDoc → Option Int
  | .mk v _ _ _ _ _ _ _ => v

/-- Field accessor. -/
def SMapDoc.file : SMapDoc → Option String
  | .mk _ f _ _ _ _ _ _ => f

/-- Field accessor. -/
def SMapDoc.sourceRoot : SMapDoc → Option String
  | .mk _ _ r _ _ _ _ _ => r

/-- Field accessor. -/
def SMapDoc.sources : SMapDoc → Option (List String)
  | .mk _ _ _ s _ _ _ _ => s

/-- Field accessor. -/
def SMapDoc.names : SMapDoc → Option (List String)
  | .mk _ _ _ _ n _ _ _ => n

/-- Field accessor. -/
def SMapDoc.mappings : SMapDoc → Option String
  | .mk _ _ _ _ _ m _ _ => m

/-- Field accessor. -/
def SMapDoc.sourcesContent : SMapDoc → Option (List String)
  | .mk _ _ _ _ _ _ c _ => c

/-- Field accessor. -/
def SMapDoc.sections : SMapDoc → Option (List (Int × Int × Option SMapDoc))
  | .mk _ _ _ _ _ _ _ s => s

/-- Field update (assignment to `file`). -/
def SMapDoc.withFile : SMapDoc → Option String → SMapDoc
  | .mk v _ r s n m c se, f => .mk v f r s n m c se

/-- Field update (assignment to `sourceRoot`). -/
def SMapDoc.withSourceRoot : SMapDoc → Option String → SMapDoc
  | .mk v f _ s n m c se, r => .mk v f r s n m c se

/-- Field update (assignment to `sources`). -/
def SMapDoc.withSources : SMapDoc → Option (List String) → SMapDoc
  | .mk v f r _ n m c se, s => .mk v f r s n m c se

/-- Field update (`delete sourceMap.sourcesContent` is `withSourcesContent
· none`). -/
def SMapDoc.withSourcesContent : SMapDoc → Option (List String) → SMapDoc
  | .mk v f r s n m _ se, c => .mk v f r s n m c se

/-- Field update (assignment to `sections`). -/
def SMapDoc.withSections : SMapDoc → Option (List (Int × Int × Option SMapDoc)) → SMapDoc
  | .mk v f r s n m c _, se => .mk v f r s n m c se

/-- The per-entry rewrite applied to `sources` by `updateSourceMapFile`:
remote-looking entries are kept, all others go through
`updateSourceMapPath`. -/
def sourceEntryRewrite (cwd sourcesRootPath : String)
    (packagerRemoteRoot packagerLocalRoot : Option String) (sourcePath : String) : String :=
  if isRemoteTest sourcePath then sourcePath
  else updateSourceMapPath cwd sourcePath sourcesRootPath packagerRemoteRoot packagerLocalRoot

/-- Document-level core of `SourceMapUtil.updateSourceMapFile`, between the
`JSON.parse` and the `JSON.stringify`:

* if `sections` is present (any array, the empty one included, is truthy),
  the entries whose nested `map` is `null` are filtered out and the result is
  handed to the `flatten-source-map` collaborator `flatten`;
* the document then goes through `SourceMapsCombinator.convert`, injected as
  `convert`;
* if `sources` is present every entry is rewritten by `sourceEntryRewrite`;
* finally `sourcesContent` is deleted, `sourceRoot` set to the empty string
  and `file` set to `scriptPath`. -/
def updateSourceMapDocWith (flatten convert : SMapDoc → SMapDoc)
    (cwd scriptPath sourcesRootPath : String)
    (packagerRemoteRoot packagerLocalRoot : Option String) (sourceMap : SMapDoc) : SMapDoc :=
  let sm1 :=
    match sourceMap.sections with
    | some secs =>
        flatten (sourceMap.withSections (some (secs.filter fun sec => sec.2.2.isSome)))
    | none => sourceMap
  let sm2 := convert sm1
  let sm3 :=
    match sm2.sources with
    | some srcs =>
        sm2.withSources (some (srcs.map
          (sourceEntryRewrite cwd sourcesRootPath packagerRemoteRoot packagerLocalRoot)))
    | none => sm2
  ((sm3.withSourcesContent none).withSourceRoot (some "")).withFile (some scriptPath)

/-- `SourceMapUtil.updateSourceMapFile`.  `parse` and `stringify` stand for
the JavaScript builtins `JSON.parse` and `JSON.stringify`; a `parse` result
of `none` is a parse exception, which the `try/catch` of the source turns
into returning `sourceMapBody` unchanged.  The collaborators `flatten` and
`convert` are total functions (the spec presents them as injected, total
contracts). -/
def updateSourceMapFileWith (parse : String → Option SMapDoc) (stringify : SMapDoc → String)
    (flatten convert : SMapDoc → SMapDoc) (cwd sourceMapBody scriptPath sourcesRootPath : String)
    (packagerRemoteRoot packagerLocalRoot : Option String) : String :=
  match parse sourceMapBody with
  | none => sourceMapBody
  | some doc =>
      stringify (updateSourceMapDocWith flatten convert cwd scriptPath sourcesRootPath
        packagerRemoteRoot packagerLocalRoot doc)

/-- Modelled from the spec: `SourceMapsCombinator.convert`
(`src/debugger/sourceMapsCombinator.ts`, a repository file that is not among
the sources provided).  The spec's contract for this secondary combination
step is that it normalizes a flat-or-near-flat map into the canonical flat
shape and is idempotent on an already-flat document; it is modelled as the
identity on the (already canonical) document model. -/
def combinatorConvertModel : SMapDoc → SMapDoc := fun m => m

/-! The script patcher operations. -/

/-- The length in characters of the whitespace consumed by the
greedy-and-backtracking `\s*` before `$` of the sourceMappingURL regex, given
the characters following the capture.  `\s*` takes the longest whitespace
prefix from which backtracking can land on a `$` position, i.e. the end of
the input (all following whitespace consumed) or a position immediately
before a line terminator (whitespace consumed up to the last line terminator
of the run). -/
def spanWsLen (rest : List Char) : Nat :=
  let w := rest.takeWhile isJsWhitespace
  if w.length = rest.length then w.length
  else
    match w.reverse.findIdx? isLineTerminator with
    | some i => w.length - 1 - i
    | none => 0

/-- Leftmost match of the single-match `SourceMapURLRegex` in a whole script
body: `some (pre, span, value, post)` decomposes the body into the text
before the match, the matched text, the capture, and the text after the
match.  The scan advances one character at a time; at a marker position the
match succeeds exactly when the rest of the current line is non-empty and
does not begin with `data:`, the capture is the lazy value on the current
line, and the matched text additionally extends over the whitespace consumed
by `\s*`. -/
def findMarkerMatch : List Char → Option (List Char × List Char × List Char × List Char)
  | [] => none
  | c :: cs =>
    match sourceMapMarkerAt (c :: cs) with
    | some (mk, rest) =>
      let lineRest := rest.takeWhile (fun ch => !isLineTerminator ch)
      if (!lineRest.isEmpty) && !(("data:".data).isPrefixOf rest) then
        match lazyMatchValue [] lineRest with
        | some v =>
          let afterVal := rest.drop v.length
          let k := spanWsLen afterVal
          some ([], mk ++ v ++ afterVal.take k, v, afterVal.drop k)
        | none =>
          match findMarkerMatch cs with
          | some (pre, sp, v, po) => some (c :: pre, sp, v, po)
          | none => none
      else
        match findMarkerMatch cs with
        | some (pre, sp, v, po) => some (c :: pre, sp, v, po)
        | none => none
    | none =>
      match findMarkerMatch cs with
      | some (pre, sp, v, po) => some (c :: pre, sp, v, po)
      | none => none

/-- The `IStrictUrl` interface: a parsed URL whose `pathname` and `href` are
guaranteed present. -/
structure StrictUrl where
  pathname : String
  href : String

/-- `SourceMapUtil.updateScriptPaths`: replace the first match of
`SourceMapURLRegex` in the body with the literal replacement
`"//# sourceMappingURL=" + path.basename(sourceMappingUrl.pathname)`.  When
the pattern does not match, `String.prototype.replace` returns the body
unchanged. -/
def updateScriptPaths (scriptBody : String) (sourceMappingUrl : StrictUrl) : String :=
  match findMarkerMatch scriptBody.data with
  | some (pre, _, _, post) =>
      (pre ++ (("//# sourceMappingURL=".data) ++ posixBasenameChars sourceMappingUrl.pathname.data)
        ++ post).asString
  | none => scriptBody

/-- `SourceMapUtil.appendSourceMapPaths`: pure string append of the comment. -/
def appendSourceMapPaths (scriptBody sourceMappingUrl : String) : String :=
  scriptBody ++ "//# sourceMappingURL=" ++ sourceMappingUrl

/-- Split a character list into lines, each paired with its terminating line
terminator (the final line has none). -/
def splitLinesWithTerms : List Char → List (List Char × Option Char)
  | [] => [([], none)]
  | c :: cs =>
    if isLineTerminator c then ([], some c) :: splitLinesWithTerms cs
    else
      match splitLinesWithTerms cs with
      | [] => [([c], none)]
      | (l, t) :: ls => (c :: l, t) :: ls

/-- Rejoin lines produced by `splitLinesWithTerms`. -/
def joinLinesWithTerms : List (List Char × Option Char) → List Char
  | [] => []
  | (l, t) :: ls =>
    l ++ (match t with | some c => [c] | none => []) ++ joinLinesWithTerms ls

/-- Whether one (terminator-free) line matches `SourceURLRegex`,
`/^\/\/[#@] ?sourceURL=(.+)$/m`: the anchors make the match cover the whole
line, the optional space is deterministic (a space can never also start
`sourceURL=`), and `(.+)` requires at least one character after the `=`. -/
def sourceURLLineTest (line : List Char) : Bool :=
  match line with
  | '/' :: '/' :: m :: rest =>
    if m = '#' || m = '@' then
      let rest2 := if rest.head? = some ' ' then rest.tail else rest
      (("sourceURL=".data).isPrefixOf rest2) && !(rest2.drop 10).isEmpty
    else false
  | _ => false

/-- Blank out the content of the first line matching `SourceURLRegex`,
keeping its terminator. -/
def removeFirstSourceURLLine : List (List Char × Option Char) → List (List Char × Option Char)
  | [] => []
  | (l, t) :: ls =>
    if sourceURLLineTest l then ([], t) :: ls
    else (l, t) :: removeFirstSourceURLLine ls

/-- `SourceMapUtil.removeSourceURL`: replace the first match of
`SourceURLRegex` with the empty string.  Since the match is exactly the
content of one line, this blanks the first matching line and keeps every
other character, the line terminators included. -/
def removeSourceURL (scriptBody : String) : String :=
  (joinLinesWithTerms (removeFirstSourceURLLine (splitLinesWithTerms scriptBody.data))).asString

/-! Model of Node's legacy `url` module (the fragment exercised by
`getSourceMapURL`): `url.parse` without query-string parsing and
`url.format`.  Hostname validation, percent-escaping of unsafe path
characters, `auth`/`port` splitting and hostless protocols are not modelled;
the theorems about `getSourceMapURL` restrict the script URL to a
well-formed lowercase host and a slashed protocol, which is the shape
`url.parse` produces for any http(s) bundle URL. -/

/-- A character allowed in the protocol prefix (`[a-z0-9.+-]`, case
insensitive). -/
def protoChar (c : Char) : Bool :=
  ('a' ≤ c && c ≤ 'z') || ('A' ≤ c && c ≤ 'Z') || ('0' ≤ c && c ≤ '9') ||
  c = '.' || c = '+' || c = '-'

/-- ASCII lowercasing of a character list. -/
def toLowerChars (l : List Char) : List Char := l.map Char.toLower

/-- Extract the protocol (lowercased, colon included) from the head of a URL
string, with the remainder; `none` when the string does not begin with a
protocol. -/
def parseProtocolChars (l : List Char) : Option (List Char) × List Char :=
  let run := l.takeWhile protoChar
  if run.isEmpty then (none, l)
  else
    match l.drop run.length with
    | c :: rest => if c = ':' then (some (toLowerChars run ++ [':']), rest) else (none, l)
    | [] => (none, l)

/-- Split at the first character satisfying `p`; the second component starts
with the matching character (or is empty). -/
def splitAtFirstChar (p : Char → Bool) : List Char → List Char × List Char
  | [] => ([], [])
  | c :: cs =>
    if p c then ([], c :: cs)
    else
      let r := splitAtFirstChar p cs
      (c :: r.1, r.2)

/-- The protocols for which Node's legacy parser demands slashes and
defaults the pathname. -/
def slashedProtocols : List String :=
  ["http:", "https:", "ftp:", "gopher:", "file:", "ws:", "wss:"]

/-- The legacy `url.Url` object, restricted to the fields the source
reads or writes. -/
structure NodeUrl where
  protocol : Option String
  slashes : Bool
  host : Option String
  pathname : Option String
  search : Option String
  hash : Option String
  href : String
deriving DecidableEq

/-- `url.format`: make the pathname absolute when a host will precede it. -/
def formatPathAbs (pathname0 : String) : String :=
  if (!pathname0.isEmpty) && pathname0.data.head? ≠ some '/' then "/" ++ pathname0
  else pathname0

/-- `url.format`: ensure the search begins with `?`. -/
def formatSearchStr (search0 : String) : String :=
  if (!search0.isEmpty) && search0.data.head? ≠ some '?' then "?" ++ search0 else search0

/-- `url.format`: ensure the hash begins with `#`. -/
def formatHashStr (hash0 : String) : String :=
  if (!hash0.isEmpty) && hash0.data.head? ≠ some '#' then "#" ++ hash0 else hash0

/-- `url.format`: ensure the protocol ends with `:`. -/
def formatProtocolStr (protocol0 : String) : String :=
  if (!protocol0.isEmpty) && protocol0.data.getLast? ≠ some ':' then protocol0 ++ ":"
  else protocol0

/-- Node's legacy `url.format`: protocol (colon ensured), `//` plus host when
the URL has slashes or a slashed protocol and a truthy host (the pathname
then being made absolute), then pathname, search (`?` ensured) and hash
(`#` ensured). -/
def NodeUrl.format (u : NodeUrl) : String :=
  let protocol := formatProtocolStr (u.protocol.getD "")
  let pathname0 := u.pathname.getD ""
  let hash := formatHashStr (u.hash.getD "")
  let search := formatSearchStr (u.search.getD "")
  let hostOpt : Option String :=
    match u.host with
    | some h => if h.isEmpty then none else some h
    | none => none
  match hostOpt with
  | some h =>
    if u.slashes || slashedProtocols.contains protocol then
      protocol ++ "//" ++ h ++ formatPathAbs pathname0 ++ search ++ hash
    else protocol ++ h ++ pathname0 ++ search ++ hash
  | none => protocol ++ pathname0 ++ search ++ hash

/-- The pathname, search and hash part of Node's legacy `url.parse`, on the
text after the protocol and host: hash from the first `#`, search from the
first `?` before the hash, the rest being the pathname; a slashed protocol
with a truthy hostname and no pathname defaults the pathname to `/`. -/
def urlParsePSH (rest3 : List Char) (protoSlashed hostTruthy : Bool) :
    Option String × Option String × Option String :=
  let s1 := splitAtFirstChar (fun c => c = '#') rest3
  let s2 := splitAtFirstChar (fun c => c = '?') s1.1
  let pathname0 : Option String := if s2.1.isEmpty then none else some s2.1.asString
  let pathname : Option String :=
    if protoSlashed && hostTruthy && pathname0.isNone then some "/" else pathname0
  let search : Option String := if s2.2.isEmpty then none else some s2.2.asString
  let hash : Option String := if s1.2.isEmpty then none else some s1.2.asString
  (pathname, search, hash)

/-- Node's legacy `url.parse` (no query-string parsing): optional protocol,
optional `//` followed by a host (read up to the first of `/`, `?`, `#` and
lowercased), then the pathname / search / hash split of `urlParsePSH`; the
`href` is the re-format of the parsed object. -/
def urlParseChars (l : List Char) : NodeUrl :=
  let pr := parseProtocolChars l
  let rest1 := pr.2
  let hasSlashes := (['/', '/'] : List Char).isPrefixOf rest1
  let rest2 := if hasSlashes then rest1.drop 2 else rest1
  let hostRun := rest2.takeWhile (fun c => !(c = '/' || c = '?' || c = '#'))
  let host : Option (List Char) := if hasSlashes then some (toLowerChars hostRun) else none
  let rest3 := if hasSlashes then rest2.drop hostRun.length else rest2
  let protoStr := pr.1.map List.asString
  let hostStr := host.map List.asString
  let hostTruthy : Bool :=
    match hostStr with
    | some h => !h.isEmpty
    | none => false
  let protoSlashed : Bool :=
    match protoStr with
    | some p => slashedProtocols.contains p
    | none => false
  let psh := urlParsePSH rest3 protoSlashed hostTruthy
  let base : NodeUrl :=
    { protocol := protoStr, slashes := hasSlashes, host := hostStr, pathname := psh.1,
      search := psh.2.1, hash := psh.2.2, href := "" }
  { base with href := base.format }

/-- `url.parse` on a string. -/
def urlParse (s : String) : NodeUrl := urlParseChars s.data

/-- `SourceMapUtil.getSourceMapURL`: extract the relative source-map URL from
the body (a falsy — absent or empty — result yields `null`), parse it,
overwrite its `protocol` and `host` with the script URL's, format, and parse
again to repopulate every property. -/
def getSourceMapURL (scriptUrl : NodeUrl) (scriptBody : String) : Option NodeUrl :=
  match getSourceMapRelativeUrl scriptBody with
  | none => none
  | some rel =>
    if rel.isEmpty then none
    else
      let m := urlParse rel
      let m2 := { m with protocol := scriptUrl.protocol, host := scriptUrl.host }
      some (urlParse m2.format)

/-! Predicates used by the statements and proofs below. -/

/-- A path segment as produced by resolution: non-empty and neither `.` nor
`..`. -/
def cleanSeg (s : List Char) : Prop :=
  s ≠ [] ∧ s ≠ ['.'] ∧ s ≠ ['.', '.']

/-- No two adjacent slashes occur in the character list. -/
def noDoubleSlash : List Char → Prop
  | [] => True
  | [_] => True
  | a :: b :: t => ¬(a = '/' ∧ b = '/') ∧ noDoubleSlash (b :: t)

/-! Generic helper lemmas. -/

/-- Round trip between a string and its character list. -/
theorem asString_data (s : String) : s.data.asString = s := by
  cases s
  rfl

/-- Round trip between a character list and its string. -/
theorem data_asString (l : List Char) : (List.asString l).data = l := rfl

/-- A non-empty string is not `isEmpty`. -/
theorem isEmpty_false_of_ne (s : String) (h : s ≠ "") : s.isEmpty = false := by
  cases he : s.isEmpty
  · rfl
  · exact absurd ((String.isEmpty_iff s).mp he) h

/-- Helper: the final three field updates of the orchestrator fix
`sourcesContent`, `sourceRoot` and `file` and keep `sources` and
`sections`. -/
theorem finalUpdates_fields (d : SMapDoc) (sp : String) :
    ((((d.withSourcesContent none).withSourceRoot (some "")).withFile (some sp)).sourcesContent
        = none)
    ∧ ((((d.withSourcesContent none).withSourceRoot (some "")).withFile (some sp)).sourceRoot
        = some "")
    ∧ ((((d.withSourcesContent none).withSourceRoot (some "")).withFile (some sp)).file
        = some sp)
    ∧ ((((d.withSourcesContent none).withSourceRoot (some "")).withFile (some sp)).sources
        = d.sources)
    ∧ ((((d.withSourcesContent none).withSourceRoot (some "")).withFile (some sp)).sections
        = d.sections) := by
  cases d
  exact ⟨rfl, rfl, rfl, rfl, rfl⟩

/-- Helper: `withSources` keeps `sections` and sets `sources`. -/
theorem withSources_fields (d : SMapDoc) (s : Option (List String)) :
    (d.withSources s).sources = s ∧ (d.withSources s).sections = d.sections := by
  cases d
  exact ⟨rfl, rfl⟩

/-- Claim C1 (confirmed).  For every input string on which JSON parsing
fails, `updateSourceMapFile` returns the raw map text unchanged, regardless
of the other arguments (and of the stringifier and the two collaborators):
the `try/catch` around the body turns the parse exception into the
pass-through. -/
theorem updateSourceMapFile_parse_failure_passthrough
    (parse : String → Option SMapDoc) (stringify : SMapDoc → String)
    (flatten convert : SMapDoc → SMapDoc) (cwd sourceMapBody scriptPath sourcesRootPath : String)
    (packagerRemoteRoot packagerLocalRoot : Option String)
    (h : parse sourceMapBody = none) :
    updateSourceMapFileWith parse stringify flatten convert cwd sourceMapBody scriptPath
      sourcesRootPath packagerRemoteRoot packagerLocalRoot = sourceMapBody := by
  simp [updateSourceMapFileWith, h]

/-- Witness for C1 at a concrete failing parse. -/
theorem updateSourceMapFile_parse_failure_passthrough_witness :
    (fun _ : String => (none : Option SMapDoc)) "not a json document" = none
    ∧ updateSourceMapFileWith (fun _ => none) (fun _ => "") id id "/work" "not a json document"
        "script.js" "/root" none none = "not a json document" :=
  ⟨rfl,
    updateSourceMapFile_parse_failure_passthrough (fun _ => none) (fun _ => "") id id "/work"
      "not a json document" "script.js" "/root" none none rfl⟩

/-- Claim C4 (confirmed).  On every successfully parsed input, the document
serialized by `updateSourceMapFile` has no `sourcesContent`, has `sourceRoot`
equal to the empty string and has `file` equal to `scriptPath`, whatever the
input document and the collaborators: the three unconditional updates are
the last thing the orchestrator does. -/
theorem updateSourceMapFile_output_invariants
    (parse : String → Option SMapDoc) (stringify : SMapDoc → String)
    (flatten convert : SMapDoc → SMapDoc) (cwd sourceMapBody scriptPath sourcesRootPath : String)
    (packagerRemoteRoot packagerLocalRoot : Option String) (doc : SMapDoc)
    (h : parse sourceMapBody = some doc) :
    updateSourceMapFileWith parse stringify flatten convert cwd sourceMapBody scriptPath
        sourcesRootPath packagerRemoteRoot packagerLocalRoot
      = stringify (updateSourceMapDocWith flatten convert cwd scriptPath sourcesRootPath
          packagerRemoteRoot packagerLocalRoot doc)
    ∧ (updateSourceMapDocWith flatten convert cwd scriptPath sourcesRootPath
        packagerRemoteRoot packagerLocalRoot doc).sourcesContent = none
    ∧ (updateSourceMapDocWith flatten convert cwd scriptPath sourcesRootPath
        packagerRemoteRoot packagerLocalRoot doc).sourceRoot = some ""
    ∧ (updateSourceMapDocWith flatten convert cwd scriptPath sourcesRootPath
        packagerRemoteRoot packagerLocalRoot doc).file = some scriptPath := by
  refine ⟨by simp [updateSourceMapFileWith, h], ?_, ?_, ?_⟩
  all_goals
    unfold updateSourceMapDocWith
    first
      | exact (finalUpdates_fields _ _).1
      | exact (finalUpdates_fields _ _).2.1
      | exact (finalUpdates_fields _ _).2.2.1

/-- Witness for C4 at a concrete successful parse. -/
theorem updateSourceMapFile_output_invariants_witness :
    (fun _ : String => some (SMapDoc.mk (some 3) (some "old") (some "/sr")
        (some ["/root/a.js"]) none (some "AAAA") (some ["content"]) none)) "body" =
      some (SMapDoc.mk (some 3) (some "old") (some "/sr") (some ["/root/a.js"]) none
        (some "AAAA") (some ["content"]) none)
    ∧ (updateSourceMapDocWith id id "/work" "script.js" "/root" none none
        (SMapDoc.mk (some 3) (some "old") (some "/sr") (some ["/root/a.js"]) none
          (some "AAAA") (some ["content"]) none)).sourcesContent = none
    ∧ (updateSourceMapDocWith id id "/work" "script.js" "/root" none none
        (SMapDoc.mk (some 3) (some "old") (some "/sr") (some ["/root/a.js"]) none
          (some "AAAA") (some ["content"]) none)).sourceRoot = some ""
    ∧ (updateSourceMapDocWith id id "/work" "script.js" "/root" none none
        (SMapDoc.mk (some 3) (some "old") (some "/sr") (some ["/root/a.js"]) none
          (some "AAAA") (some ["content"]) none)).file = some "script.js" := by
  have h := updateSourceMapFile_output_invariants (fun _ => some (SMapDoc.mk (some 3)
    (some "old") (some "/sr") (some ["/root/a.js"]) none (some "AAAA") (some ["content"]) none))
    (fun _ => "") id id "/work" "body" "script.js" "/root" none none _ rfl
  exact ⟨rfl, h.2.1, h.2.2.1, h.2.2.2⟩

/-- Claim C10 (confirmed).  When the source path equals the sources root (and
no packager roots are given), `path.relative` yields the empty string and
`makeUnixStylePath` — `path.posix.join` of the fragments of the empty
string — turns it into `"."`, so the normalizer returns `"."`, for every
working directory. -/
theorem updateSourceMapPath_self_dot (cwd p : String) :
    posixRelativeChars cwd.data p.data p.data = []
    ∧ makeUnixStylePath "" = "."
    ∧ updateSourceMapPath cwd p p none none = "." := by
  have h1 : posixRelativeChars cwd.data p.data p.data = [] := by
    simp [posixRelativeChars]
  refine ⟨h1, rfl, ?_⟩
  show (makeUnixStylePathChars (posixRelativeChars cwd.data p.data p.data)).asString = "."
  rw [h1]
  rfl

/-- Helper: the literal class `[a-zA-z]` coincides with the single range
65..122, since `a`..`z` is contained in `A`..`z`. -/
theorem isRemoteClassChar_eq (c : Char) : isRemoteClassChar c = specRemoteFixedChar c := by
  unfold isRemoteClassChar specRemoteFixedChar
  by_cases hb : ('A' ≤ c && c ≤ 'z') = true
  · simp [hb]
  · simp only [Bool.not_eq_true] at hb
    rw [hb, Bool.or_false]
    cases ha : ('a' ≤ c && c ≤ 'z')
    · rfl
    · simp only [Bool.and_eq_true, decide_eq_true_eq] at ha
      have : ('A' ≤ c && c ≤ 'z') = true := by
        simp only [Bool.and_eq_true, decide_eq_true_eq]
        exact ⟨le_trans (by decide : ('A' : Char) ≤ 'a') ha.1, ha.2⟩
      rw [this] at hb
      cases hb

/-- Helper: `IS_REMOTE.test` as implemented equals the amended claim's
65..122 pattern. -/
theorem isRemoteTest_eq_fixed (s : String) : isRemoteTest s = specIsRemoteFixed s := by
  have h : isRemoteClassChar = specRemoteFixedChar := funext isRemoteClassChar_eq
  unfold isRemoteTest isRemoteTestChars specIsRemoteFixed
  rw [h]

/-- Claim C3 (amended).  A `sources` entry is left untouched by the per-entry
rewrite if and only if it matches `/^[a-zA-z]{2,}:\/\//` — at least two
characters with code between 65 (`A`) and 122 (`z`), a class that also
contains the six punctuation characters between `Z` and `a` — and every
non-matching entry is passed to the path normalizer. -/
theorem sourceEntryRewrite_remote_class_characterization
    (cwd sourcesRootPath : String) (rr lr : Option String) (s : String) :
    sourceEntryRewrite cwd sourcesRootPath rr lr s
      = if specIsRemoteFixed s then s else updateSourceMapPath cwd s sourcesRootPath rr lr := by
  unfold sourceEntryRewrite
  rw [isRemoteTest_eq_fixed]

/-- Counterexample to claim C3 as stated: `"__://x"` contains no letter at
all, so the claim's pattern `^[A-Za-z]{2,}://` rejects it and the claim
requires it to be passed to the path normalizer (which would rewrite it);
the code's `IS_REMOTE` accepts it and the entry survives
`updateSourceMapFile` untouched. -/
theorem isRemote_nonletter_cex :
    specIsRemoteLetters "__://x" = false
    ∧ isRemoteTest "__://x" = true
    ∧ updateSourceMapPath "/w" "__://x" "/r" none none = "../w/__:/x"
    ∧ ((updateSourceMapDocWith id combinatorConvertModel "/w" "s.js" "/r" none none
        (SMapDoc.mk none none none (some ["__://x"]) none none none none)).sources
        = some ["__://x"])
    ∧ ("__://x" : String) ≠ "../w/__:/x" :=
  ⟨by decide, by decide, rfl, rfl, by decide⟩

/-- Helper: the lazy capture equals the rest of the line with trailing
whitespace trimmed — or its first character when it is all whitespace. -/
theorem lazyMatchValue_eq (l : List Char) (hne : l ≠ []) : ∀ acc,
    lazyMatchValue acc l
      = some (acc.reverse
          ++ (if (trimTrailingWs l).isEmpty then l.take 1 else trimTrailingWs l)) := by
  induction l with
  | nil => exact absurd rfl hne
  | cons c cs ih =>
    intro acc
    unfold lazyMatchValue
    by_cases hw : cs.all isJsWhitespace
    · rw [if_pos hw]
      have hdrop : cs.reverse.dropWhile isJsWhitespace = [] := by
        rw [List.dropWhile_eq_nil_iff]
        intro x hx
        exact (List.all_eq_true.mp hw) x (List.mem_reverse.mp hx)
      have htt : trimTrailingWs (c :: cs)
          = if isJsWhitespace c then [] else [c] := by
        unfold trimTrailingWs
        rw [List.reverse_cons, List.dropWhile_append, hdrop]
        by_cases hc : isJsWhitespace c
        · simp [hc]
        · simp [hc]
      by_cases hc : isJsWhitespace c
      · rw [htt]
        simp [hc]
      · rw [htt]
        simp [hc]
    · rw [if_neg hw]
      have hcs : cs ≠ [] := by
        intro h
        rw [h] at hw
        exact hw rfl
      have hxd : cs.reverse.dropWhile isJsWhitespace ≠ [] := by
        rw [Ne, List.dropWhile_eq_nil_iff]
        intro hall
        apply hw
        rw [List.all_eq_true]
        intro x hx
        exact hall x (List.mem_reverse.mpr hx)
      have htt : trimTrailingWs (c :: cs) = c :: trimTrailingWs cs := by
        unfold trimTrailingWs
        rw [List.reverse_cons, List.dropWhile_append]
        rw [if_neg (by simpa using hxd)]
        rw [List.reverse_append, List.reverse_singleton]
        rfl
      have httne : trimTrailingWs cs ≠ [] := by
        unfold trimTrailingWs
        simpa using hxd
      have h2 : (trimTrailingWs cs).isEmpty = false := by
        cases hh : (trimTrailingWs cs).isEmpty
        · rfl
        · exact absurd (by simpa using hh) httne
      rw [ih hcs (c :: acc), htt]
      simp only [h2, List.isEmpty_cons, Bool.false_eq_true, if_false, List.reverse_cons,
        List.append_assoc, List.singleton_append]

/-- Helper: the code's per-line capture coincides with the amended claim's
per-line value. -/
theorem lineSourceMapValue_eq_amended : ∀ l, lineSourceMapValue l = specLineValueAmended l := by
  intro l
  induction l with
  | nil => rfl
  | cons c cs ih =>
    unfold lineSourceMapValue specLineValueAmended
    rcases hm : sourceMapMarkerAt (c :: cs) with _ | ⟨mk, rest⟩
    · exact ih
    · show (if ((!rest.isEmpty) && !(("data:".data).isPrefixOf rest)) = true then
          lazyMatchValue [] rest else lineSourceMapValue cs)
        = (if ((!rest.isEmpty) && !(("data:".data).isPrefixOf rest)) = true then
            (if (trimTrailingWs rest).isEmpty = true then some (rest.take 1)
             else some (trimTrailingWs rest))
          else specLineValueAmended cs)
      by_cases hq : ((!rest.isEmpty) && !(("data:".data).isPrefixOf rest)) = true
      · rw [if_pos hq, if_pos hq]
        have hne : rest ≠ [] := by
          rcases Bool.and_eq_true .. |>.mp hq with ⟨h1, _⟩
          simpa using h1
        rw [lazyMatchValue_eq rest hne []]
        simp only [List.reverse_nil, List.nil_append]
        by_cases ht : (trimTrailingWs rest).isEmpty
        · rw [if_pos ht, if_pos ht]
        · rw [if_neg ht, if_neg ht]
      · rw [if_neg hq, if_neg hq]
        exact ih

/-- Claim C2 (amended).  `getSourceMapRelativeUrl` considers exactly the
lines matching `//[#@] sourceMappingURL=<value>` whose text after the marker
is non-empty and does not begin with `data:`, and returns the value of the
last such line in document order with only the trailing whitespace trimmed
(an all-whitespace value is returned as its first character); it returns
null when no such line exists. -/
theorem getSourceMapRelativeUrl_last_match_trailing_trim (body : String) :
    getSourceMapRelativeUrl body = specAmendedLastUrl body := by
  unfold getSourceMapRelativeUrl specAmendedLastUrl getSourceMapRelativeUrlChars
  rw [funext lineSourceMapValue_eq_amended]

/-- Counterexample to claim C2 as stated: with a value written after a
leading space the code keeps the space (the regex trims trailing whitespace
only), while the claim's surrounding-whitespace trim would drop it. -/
theorem getSourceMapRelativeUrl_leading_space_cex :
    getSourceMapRelativeUrl "//# sourceMappingURL= x.map" = some " x.map"
    ∧ specSurroundTrimmedLastUrl "//# sourceMappingURL= x.map" = some "x.map"
    ∧ (" x.map" : String) ≠ "x.map" :=
  ⟨rfl, rfl, by decide⟩

/-- Helper: when the pattern occurs nowhere in the string, the first-occurrence
replacement leaves it unchanged. -/
theorem replaceFirstChars_of_not_infix (pat repl : List Char) :
    ∀ l, ¬ pat <:+: l → replaceFirstChars pat repl l = l := by
  intro l
  induction l with
  | nil =>
    intro h
    unfold replaceFirstChars
    have hpat : ¬ pat.isEmpty = true := by
      intro he
      apply h
      rw [List.isEmpty_iff.mp he]
    rw [if_neg hpat]
  | cons c cs ih =>
    intro h
    unfold replaceFirstChars
    have hpre : ¬ pat.isPrefixOf (c :: cs) = true := by
      intro hp
      exact h (List.IsPrefix.isInfix (List.isPrefixOf_iff_prefix.mp hp))
    rw [if_neg hpre]
    rw [ih (fun hi => h (List.infix_cons hi))]

/-- Claim C6 (amended).  With both packager roots provided (and truthy), the
normalizer first converts both through `makeUnixStylePath`, then replaces the
first occurrence of the converted remote root anywhere inside `sourcePath`
(JavaScript's `String.prototype.replace` with a string pattern — not only a
leading-prefix occurrence) before computing the relative path; a source path
that does not contain the converted remote root at all is left untouched by
the substitution step. -/
theorem updateSourceMapPath_substitution_spec (cwd sp root r l : String)
    (hr : r ≠ "") (hl : l ≠ "") :
    updateSourceMapPath cwd sp root (some r) (some l)
        = (makeUnixStylePathChars (posixRelativeChars cwd.data root.data
            (replaceFirstChars (makeUnixStylePathChars r.data) (makeUnixStylePathChars l.data)
              sp.data))).asString
    ∧ (¬ (makeUnixStylePathChars r.data) <:+: sp.data →
        replaceFirstChars (makeUnixStylePathChars r.data) (makeUnixStylePathChars l.data) sp.data
          = sp.data) := by
  constructor
  · unfold updateSourceMapPath
    rw [show truthyStr (some r) = true from by simp [truthyStr, isEmpty_false_of_ne r hr]]
    rw [show truthyStr (some l) = true from by simp [truthyStr, isEmpty_false_of_ne l hl]]
    rfl
  · exact replaceFirstChars_of_not_infix _ _ _

/-- Witness for C6's amended theorem at concrete arguments. -/
theorem updateSourceMapPath_substitution_spec_witness :
    updateSourceMapPath "/w" "/app/rem/x.js" "/app" (some "rem") (some "loc")
        = (makeUnixStylePathChars (posixRelativeChars "/w".data "/app".data
            (replaceFirstChars (makeUnixStylePathChars "rem".data)
              (makeUnixStylePathChars "loc".data) "/app/rem/x.js".data))).asString
    ∧ (¬ (makeUnixStylePathChars "rem".data) <:+: "/app/rem/x.js".data →
        replaceFirstChars (makeUnixStylePathChars "rem".data) (makeUnixStylePathChars "loc".data)
          "/app/rem/x.js".data = "/app/rem/x.js".data) :=
  updateSourceMapPath_substitution_spec "/w" "/app/rem/x.js" "/app" "rem" "loc"
    (by decide) (by decide)

/-- Counterexample to claim C6 as stated: the remote root `rem` occurs in the
middle of `/app/rem/x.js`, not as a leading prefix, yet the code substitutes
it (`String.prototype.replace` replaces the first occurrence anywhere); under
the claim's leading-prefix reading the substitution step would leave the path
untouched and the normalizer would return `rem/x.js`. -/
theorem updateSourceMapPath_mid_occurrence_cex :
    updateSourceMapPath "/w" "/app/rem/x.js" "/app" (some "rem") (some "loc") = "loc/x.js"
    ∧ updateSourceMapPath "/w" "/app/rem/x.js" "/app" none none = "rem/x.js"
    ∧ ("loc/x.js" : String) ≠ "rem/x.js" :=
  ⟨rfl, rfl, by decide⟩

/-- Helper: a marker match decomposes its input. -/
theorem sourceMapMarkerAt_decomp (l mk rest : List Char)
    (h : sourceMapMarkerAt l = some (mk, rest)) : l = mk ++ rest := by
  unfold sourceMapMarkerAt at h
  split_ifs at h with h1 h2
  · simp only [Option.some.injEq, Prod.mk.injEq] at h
    obtain ⟨hmk, hrest⟩ := h
    obtain ⟨t, ht⟩ := List.isPrefixOf_iff_prefix.mp h1
    have hlen : ("//# sourceMappingURL=".data).length = 21 := by decide
    rw [← hmk, ← hrest, ← ht, ← hlen, List.drop_left]
  · simp only [Option.some.injEq, Prod.mk.injEq] at h
    obtain ⟨hmk, hrest⟩ := h
    obtain ⟨t, ht⟩ := List.isPrefixOf_iff_prefix.mp h2
    have hlen : ("//@ sourceMappingURL=".data).length = 21 := by decide
    rw [← hmk, ← hrest, ← ht, ← hlen, List.drop_left]

theorem trimTrailingWs_prefix (l : List Char) : trimTrailingWs l <+: l := by
  unfold trimTrailingWs
  have h := List.reverse_prefix.mpr (List.dropWhile_suffix (l := l.reverse) isJsWhitespace)
  rwa [List.reverse_reverse] at h

theorem lazyMatchValue_prefix (l v : List Char) (h : lazyMatchValue [] l = some v) :
    v <+: l := by
  rcases eq_or_ne l [] with hl | hl
  · rw [hl] at h
    cases h
  · rw [lazyMatchValue_eq l hl []] at h
    simp only [List.reverse_nil, List.nil_append, Option.some.injEq] at h
    rw [← h]
    by_cases ht : (trimTrailingWs l).isEmpty
    · rw [if_pos ht]
      exact List.take_prefix 1 l
    · rw [if_neg ht]
      exact trimTrailingWs_prefix l

theorem findMarkerMatch_step (c : Char) (cs : List Char) (pre span v post : List Char)
    (h : (match findMarkerMatch cs with
          | some (p, sp, vv, po) => some (c :: p, sp, vv, po)
          | none => (none : Option (List Char × List Char × List Char × List Char)))
        = some (pre, span, v, post))
    (ih : ∀ pre span v post, findMarkerMatch cs = some (pre, span, v, post) →
      cs = pre ++ span ++ post) :
    c :: cs = pre ++ span ++ post := by
  revert h
  cases hr : findMarkerMatch cs with
  | none => intro h; cases h
  | some q =>
    obtain ⟨p0, s0, v0, po0⟩ := q
    intro h
    simp only [Option.some.injEq, Prod.mk.injEq] at h
    obtain ⟨h1, h2, h3, h4⟩ := h
    subst h1; subst h2; subst h3; subst h4
    have := ih p0 s0 v0 po0 hr
    rw [List.cons_append, List.cons_append, ← this]

theorem findMarkerMatch_decomp : ∀ l pre span v post,
    findMarkerMatch l = some (pre, span, v, post) → l = pre ++ span ++ post := by
  intro l
  induction l with
  | nil =>
    intro pre span v post h
    simp [findMarkerMatch] at h
  | cons c cs ih =>
    intro pre span v post h
    rw [findMarkerMatch] at h
    cases hm : sourceMapMarkerAt (c :: cs) with
    | none =>
      rw [hm] at h
      exact findMarkerMatch_step c cs pre span v post h ih
    | some pr =>
      obtain ⟨mk, rest⟩ := pr
      rw [hm] at h
      dsimp only at h
      by_cases hq : ((!(rest.takeWhile (fun ch => !isLineTerminator ch)).isEmpty)
          && !(("data:".data).isPrefixOf rest)) = true
      · rw [if_pos hq] at h
        revert h
        cases hl : lazyMatchValue [] (rest.takeWhile (fun ch => !isLineTerminator ch)) with
        | none =>
          intro h
          exact findMarkerMatch_step c cs pre span v post h ih
        | some v0 =>
          intro h
          simp only [Option.some.injEq, Prod.mk.injEq] at h
          obtain ⟨h1, h2, h3, h4⟩ := h
          subst h1; subst h2; subst h3; subst h4
          have hdec := sourceMapMarkerAt_decomp _ _ _ hm
          have hvp : v0 <+: rest := by
            have hp1 : v0 <+: rest.takeWhile (fun ch => !isLineTerminator ch) :=
              lazyMatchValue_prefix _ _ hl
            exact hp1.trans (List.takeWhile_prefix _)
          obtain ⟨t, ht⟩ := hvp
          have hdrop : rest.drop v0.length = t := by
            rw [← ht, List.drop_left]
          rw [List.nil_append, hdec]
          rw [List.append_assoc, List.append_assoc, List.take_append_drop, hdrop, ht]
      · rw [if_neg hq] at h
        exact findMarkerMatch_step c cs pre span v post h ih

/-- Claim C5 (amended).  When the body contains a match of the single-match
map-reference pattern, `updateScriptPaths` replaces the whole first matched
text (marker, value and the trailing whitespace the match consumed) with the
literal `//# sourceMappingURL=` followed by the basename of the new map
location's pathname — the marker of the replacement is always `//#`, whatever
marker the match carried — and the text before and after the match is
unchanged; with no match the body is returned unchanged. -/
theorem updateScriptPaths_first_match_replacement (body : String) (u : StrictUrl) :
    (∀ pre span v post, findMarkerMatch body.data = some (pre, span, v, post) →
       body.data = pre ++ span ++ post
       ∧ updateScriptPaths body u
           = (pre ++ (("//# sourceMappingURL=".data) ++ posixBasenameChars u.pathname.data)
               ++ post).asString)
    ∧ (findMarkerMatch body.data = none → updateScriptPaths body u = body) := by
  constructor
  · intro pre span v post h
    refine ⟨findMarkerMatch_decomp _ _ _ _ _ h, ?_⟩
    unfold updateScriptPaths
    rw [h]
  · intro h
    unfold updateScriptPaths
    rw [h]

/-- Witness for C5's amended theorem: a matching body (the match keeps its
surrounding text, with the trailing whitespace of the comment consumed) and a
non-matching body. -/
theorem updateScriptPaths_first_match_replacement_witness :
    ("code;\n//# sourceMappingURL=old.map  \nrest".data
        = "code;\n".data ++ "//# sourceMappingURL=old.map  ".data ++ "\nrest".data
      ∧ updateScriptPaths "code;\n//# sourceMappingURL=old.map  \nrest"
          ⟨"/maps/new.map", "http://localhost:8081/maps/new.map"⟩
        = ("code;\n".data ++ (("//# sourceMappingURL=".data)
            ++ posixBasenameChars "/maps/new.map".data) ++ "\nrest".data).asString)
    ∧ updateScriptPaths "no marker here"
        ⟨"/maps/new.map", "http://localhost:8081/maps/new.map"⟩ = "no marker here" :=
  ⟨(updateScriptPaths_first_match_replacement "code;\n//# sourceMappingURL=old.map  \nrest"
      ⟨"/maps/new.map", "http://localhost:8081/maps/new.map"⟩).1
      "code;\n".data "//# sourceMappingURL=old.map  ".data "old.map".data "\nrest".data rfl,
    (updateScriptPaths_first_match_replacement "no marker here"
      ⟨"/maps/new.map", "http://localhost:8081/maps/new.map"⟩).2 rfl⟩

/-- Counterexample to claim C5 as stated: a legacy `//@` marker is not
preserved — the whole match is replaced by the literal replacement string, so
the marker comes out as `//#`. -/
theorem updateScriptPaths_at_marker_cex :
    updateScriptPaths "//@ sourceMappingURL=old.map"
        ⟨"/maps/new.map", "http://localhost:8081/maps/new.map"⟩
      = "//# sourceMappingURL=new.map"
    ∧ ("//# sourceMappingURL=new.map" : String) ≠ "//@ sourceMappingURL=new.map" :=
  ⟨rfl, by decide⟩

/-- Helper: the line splitter never returns an empty list. -/
theorem splitLinesWithTerms_ne_nil : ∀ l, splitLinesWithTerms l ≠ [] := by
  intro l
  cases l with
  | nil => simp [splitLinesWithTerms]
  | cons c cs =>
    unfold splitLinesWithTerms
    by_cases h : isLineTerminator c
    · simp [h]
    · rw [if_neg (by simp [h])]
      cases hsp : splitLinesWithTerms cs with
      | nil => simp
      | cons p ls =>
        obtain ⟨a, b⟩ := p
        simp

/-- Helper: one step of the rejoiner. -/
theorem joinLinesWithTerms_cons (a : List Char) (b : Option Char)
    (ls : List (List Char × Option Char)) :
    joinLinesWithTerms ((a, b) :: ls)
      = a ++ (Option.elim b [] (fun x => [x])) ++ joinLinesWithTerms ls := by
  cases b <;> rfl

/-- Helper: splitting into lines with terminators and rejoining is the
identity. -/
theorem joinLines_splitLines (l : List Char) :
    joinLinesWithTerms (splitLinesWithTerms l) = l := by
  induction l with
  | nil => rfl
  | cons c cs ih =>
    unfold splitLinesWithTerms
    by_cases h : isLineTerminator c
    · rw [if_pos h]
      show [] ++ [c] ++ joinLinesWithTerms (splitLinesWithTerms cs) = c :: cs
      rw [ih]
      rfl
    · rw [if_neg (by simp [h])]
      cases hsp : splitLinesWithTerms cs with
      | nil => exact absurd hsp (splitLinesWithTerms_ne_nil cs)
      | cons p ls =>
        obtain ⟨a, b⟩ := p
        dsimp only
        rw [joinLinesWithTerms_cons]
        have h2 : a ++ (Option.elim b [] (fun x => [x])) ++ joinLinesWithTerms ls = cs := by
          have h3 := ih
          rw [hsp, joinLinesWithTerms_cons] at h3
          exact h3
        rw [List.cons_append, List.cons_append, h2]

/-- Helper: with no matching line, the blanking pass is the identity. -/
theorem removeFirstSourceURLLine_of_none :
    ∀ ps, (∀ p ∈ ps, sourceURLLineTest p.1 = false) → removeFirstSourceURLLine ps = ps := by
  intro ps
  induction ps with
  | nil => intro _; rfl
  | cons p ls ih =>
    intro h
    obtain ⟨a, b⟩ := p
    have hf : sourceURLLineTest a = false := h (a, b) (List.mem_cons_self _ _)
    unfold removeFirstSourceURLLine
    simp only [hf, Bool.false_eq_true, if_false]
    rw [ih (fun q hq => h q (List.mem_cons_of_mem _ hq))]

/-- Helper: the blanking pass blanks exactly the first matching line. -/
theorem removeFirstSourceURLLine_decomp :
    ∀ pre (p : List Char × Option Char) post,
      (∀ q ∈ pre, sourceURLLineTest q.1 = false) → sourceURLLineTest p.1 = true →
      removeFirstSourceURLLine (pre ++ p :: post) = pre ++ ([], p.2) :: post := by
  intro pre
  induction pre with
  | nil =>
    intro p post _ hp
    obtain ⟨a, b⟩ := p
    unfold removeFirstSourceURLLine
    simp only at hp
    simp only [List.nil_append, hp, if_true]
  | cons q qs ih =>
    intro p post hpre hp
    obtain ⟨a, b⟩ := q
    have hf : sourceURLLineTest a = false := hpre (a, b) (List.mem_cons_self _ _)
    rw [List.cons_append]
    unfold removeFirstSourceURLLine
    simp only [hf, Bool.false_eq_true, if_false]
    rw [ih p post (fun r hr => hpre r (List.mem_cons_of_mem _ hr)) hp, List.cons_append]

/-- Claim C8 (confirmed).  `removeSourceURL` blanks (replaces with the empty
string) the content of the first line matching `^//[#@] ?sourceURL=<value>$`,
leaves every other character of the body — the line terminators included —
untouched, and returns the body unchanged when no line matches. -/
theorem removeSourceURL_first_line_removed (body : String) :
    ((∀ p ∈ splitLinesWithTerms body.data, sourceURLLineTest p.1 = false) →
        removeSourceURL body = body)
    ∧ (∀ pre (p : List Char × Option Char) post,
        splitLinesWithTerms body.data = pre ++ p :: post →
        (∀ q ∈ pre, sourceURLLineTest q.1 = false) → sourceURLLineTest p.1 = true →
        removeSourceURL body = (joinLinesWithTerms (pre ++ ([], p.2) :: post)).asString) := by
  constructor
  · intro h
    unfold removeSourceURL
    rw [removeFirstSourceURLLine_of_none _ h, joinLines_splitLines, asString_data]
  · intro pre p post hsplit hpre hp
    unfold removeSourceURL
    rw [hsplit, removeFirstSourceURLLine_decomp pre p post hpre hp]

/-- Witness for C8 on the spec's example line: the matching line is blanked
(its terminator kept) and the rest is untouched; a body without a matching
line is unchanged. -/
theorem removeSourceURL_first_line_removed_witness :
    removeSourceURL "//# sourceURL=http://localhost:8081/index.bundle?platform=android\ncode"
        = (joinLinesWithTerms ([] ++ ([], some '\n') :: [("code".data, none)])).asString
    ∧ removeSourceURL "plain body\nno directive" = "plain body\nno directive" :=
  ⟨(removeSourceURL_first_line_removed
        "//# sourceURL=http://localhost:8081/index.bundle?platform=android\ncode").2
      [] ("//# sourceURL=http://localhost:8081/index.bundle?platform=android".data, some '\n')
      [("code".data, none)] rfl (by simp) (by decide),
    (removeSourceURL_first_line_removed "plain body\nno directive").1 (by decide)⟩

/-- Helper: `takeWhile` over an append that stops exactly at the junction. -/
theorem takeWhile_append_stop (p : Char → Bool) (a t : List Char)
    (ha : ∀ x ∈ a, p x = true)
    (ht : t = [] ∨ ∃ c cs, t = c :: cs ∧ p c = false) :
    (a ++ t).takeWhile p = a := by
  rw [List.takeWhile_append]
  have h1 : a.takeWhile p = a := by
    rw [List.takeWhile_eq_self_iff]
    exact ha
  rw [h1, if_pos rfl]
  rcases ht with h | ⟨c, cs, hct, hc⟩
  · rw [h]
    simp
  · rw [hct]
    unfold List.takeWhile
    rw [hc]
    simp

/-- Helper: the protocol extractor on a well-formed lowercase protocol. -/
theorem parseProtocolChars_wf (core rest : List Char) (hne : core ≠ [])
    (hcore : ∀ c ∈ core, protoChar c = true ∧ Char.toLower c = c) :
    parseProtocolChars (core ++ ':' :: rest) = (some (core ++ [':']), rest) := by
  unfold parseProtocolChars
  have h1 : (core ++ ':' :: rest).takeWhile protoChar = core :=
    takeWhile_append_stop protoChar core (':' :: rest)
      (fun x hx => (hcore x hx).1) (Or.inr ⟨':', rest, rfl, by decide⟩)
  rw [h1]
  rw [if_neg (by simpa using hne)]
  have h2 : (core ++ ':' :: rest).drop core.length = ':' :: rest := List.drop_left core _
  rw [h2]
  dsimp only
  rw [if_pos rfl]
  have h3 : toLowerChars core = core := by
    unfold toLowerChars
    rw [List.map_congr_left (fun c hc => (hcore c hc).2)]
    exact List.map_id core
  rw [h3]

/-- Helper: characterization of `splitAtFirstChar`. -/
theorem splitAtFirstChar_spec (p : Char → Bool) : ∀ l : List Char,
    (∀ c ∈ (splitAtFirstChar p l).1, p c = false)
    ∧ ((splitAtFirstChar p l).2 = [] ∨ ∃ c cs, (splitAtFirstChar p l).2 = c :: cs ∧ p c = true)
    ∧ (splitAtFirstChar p l).1 ++ (splitAtFirstChar p l).2 = l := by
  intro l
  induction l with
  | nil => exact ⟨by simp [splitAtFirstChar], Or.inl rfl, rfl⟩
  | cons c cs ih =>
    unfold splitAtFirstChar
    by_cases hc : p c
    · rw [if_pos hc]
      exact ⟨by simp, Or.inr ⟨c, cs, rfl, hc⟩, rfl⟩
    · rw [if_neg hc]
      refine ⟨?_, ih.2.1, ?_⟩
      · intro x hx
        rcases List.mem_cons.mp hx with h | h
        · rw [h]
          exact Bool.not_eq_true _ |>.mp hc
        · exact ih.1 x h
      · dsimp only
        rw [List.cons_append, ih.2.2]

/-- Helper: `splitAtFirstChar` on a decomposed input. -/
theorem splitAtFirstChar_append (p : Char → Bool) (a b : List Char)
    (ha : ∀ x ∈ a, p x = false)
    (hb : b = [] ∨ ∃ c cs, b = c :: cs ∧ p c = true) :
    splitAtFirstChar p (a ++ b) = (a, b) := by
  induction a with
  | nil =>
    rcases hb with h | ⟨c, cs, hct, hc⟩
    · rw [h]
      rfl
    · rw [List.nil_append, hct]
      unfold splitAtFirstChar
      rw [if_pos hc]
  | cons x xs ih =>
    rw [List.cons_append]
    unfold splitAtFirstChar
    rw [if_neg (by simp [ha x (List.mem_cons_self _ _)])]
    rw [ih (fun y hy => ha y (List.mem_cons_of_mem _ hy))]

/-- Helper: shapes of the pathname, search and hash fields produced by the
parser: a present pathname is non-empty and free of hash and query markers, a
present search begins with the query marker and is hash-free, a present hash
begins with the hash marker. -/
theorem urlParsePSH_shapes (rest3 : List Char) (ps ht : Bool) :
    ((urlParsePSH rest3 ps ht).1 = none ∨ ∃ pn : String, (urlParsePSH rest3 ps ht).1 = some pn ∧
        pn.data ≠ [] ∧ ∀ c ∈ pn.data, ¬(c = '#' ∨ c = '?'))
    ∧ ((urlParsePSH rest3 ps ht).2.1 = none ∨ ∃ se : String,
        (urlParsePSH rest3 ps ht).2.1 = some se ∧
        (∃ t, se.data = '?' :: t) ∧ ∀ c ∈ se.data, ¬(c = '#'))
    ∧ ((urlParsePSH rest3 ps ht).2.2 = none ∨ ∃ ha : String,
        (urlParsePSH rest3 ps ht).2.2 = some ha ∧ ∃ t, ha.data = '#' :: t) := by
  have hs1 := splitAtFirstChar_spec (fun c => decide (c = '#')) rest3
  have hs2 := splitAtFirstChar_spec (fun c => decide (c = '?'))
    (splitAtFirstChar (fun c => decide (c = '#')) rest3).1
  unfold urlParsePSH
  dsimp only
  refine ⟨?_, ?_, ?_⟩
  · by_cases h0 : (splitAtFirstChar (fun c => decide (c = '?'))
        (splitAtFirstChar (fun c => decide (c = '#')) rest3).1).1.isEmpty
    · rw [if_pos h0]
      by_cases h1 : (ps && ht && (none : Option String).isNone) = true
      · rw [if_pos h1]
        exact Or.inr ⟨"/", rfl, by decide, by decide⟩
      · rw [if_neg h1]
        exact Or.inl rfl
    · rw [if_neg h0]
      have h2 : (ps && ht
          && (some (splitAtFirstChar (fun c => decide (c = '?'))
              (splitAtFirstChar (fun c => decide (c = '#')) rest3).1).1.asString
              : Option String).isNone) = false := by
        simp
      rw [h2, if_neg Bool.false_ne_true]
      refine Or.inr ⟨_, rfl, by simpa using h0, ?_⟩
      intro c hc
      rw [data_asString] at hc
      have hmem1 : c ∈ (splitAtFirstChar (fun c => decide (c = '#')) rest3).1 := by
        rw [← hs2.2.2]
        exact List.mem_append_left _ hc
      push_neg
      constructor
      · simpa using hs1.1 c hmem1
      · simpa using hs2.1 c hc
  · by_cases h0 : (splitAtFirstChar (fun c => decide (c = '?'))
        (splitAtFirstChar (fun c => decide (c = '#')) rest3).1).2.isEmpty
    · rw [if_pos h0]
      exact Or.inl rfl
    · rw [if_neg h0]
      rcases hs2.2.1 with he | ⟨c, cs, hct, hc⟩
      · rw [he] at h0
        exact absurd rfl h0
      · refine Or.inr ⟨_, rfl, ⟨cs, by rw [data_asString, hct]; simpa using hc⟩, ?_⟩
        intro x hx
        rw [data_asString] at hx
        have hmem1 : x ∈ (splitAtFirstChar (fun c => decide (c = '#')) rest3).1 := by
          rw [← hs2.2.2]
          exact List.mem_append_right _ hx
        simpa using hs1.1 x hmem1
  · by_cases h0 : (splitAtFirstChar (fun c => decide (c = '#')) rest3).2.isEmpty
    · rw [if_pos h0]
      exact Or.inl rfl
    · rw [if_neg h0]
      rcases hs1.2.1 with he | ⟨c, cs, hct, hc⟩
      · rw [he] at h0
        exact absurd rfl h0
      · exact Or.inr ⟨_, rfl, ⟨cs, by rw [data_asString, hct]; simpa using hc⟩⟩

/-- Helper: the absolutized pathname is empty or slash-headed, and stays free
of hash and query markers. -/
theorem formatPathAbs_shape (pn0 : String)
    (h : pn0 = "" ∨ (pn0.data ≠ [] ∧ ∀ c ∈ pn0.data, ¬(c = '#' ∨ c = '?'))) :
    (((formatPathAbs pn0).data = [] ∨ (formatPathAbs pn0).data.head? = some '/')
      ∧ ∀ c ∈ (formatPathAbs pn0).data, ¬(c = '#' ∨ c = '?')) := by
  rcases h with he | ⟨hne, hch⟩
  · rw [he]
    exact ⟨Or.inl rfl, by decide⟩
  · unfold formatPathAbs
    by_cases hh : pn0.data.head? = some '/'
    · rw [if_neg (by simp [hh])]
      exact ⟨Or.inr hh, hch⟩
    · have hne2 : pn0 ≠ "" := by
        intro h0
        apply hne
        rw [h0]
      rw [if_pos (by simp [isEmpty_false_of_ne pn0 hne2, hh])]
      rw [String.data_append]
      refine ⟨Or.inr rfl, ?_⟩
      intro c hc
      rcases List.mem_cons.mp (by simpa using hc) with h1 | h1
      · rw [h1]
        decide
      · exact hch c h1

/-- Helper: a search already starting with the query marker is unchanged. -/
theorem formatSearchStr_of_shape (se0 : String)
    (h : se0 = "" ∨ ∃ t, se0.data = '?' :: t) :
    formatSearchStr se0 = se0 := by
  rcases h with he | ⟨t, ht⟩
  · rw [he]
    rfl
  · unfold formatSearchStr
    rw [if_neg (by simp [ht])]

/-- Helper: a hash already starting with the hash marker is unchanged. -/
theorem formatHashStr_of_shape (ha0 : String)
    (h : ha0 = "" ∨ ∃ t, ha0.data = '#' :: t) :
    formatHashStr ha0 = ha0 := by
  rcases h with he | ⟨t, ht⟩
  · rw [he]
    rfl
  · unfold formatHashStr
    rw [if_neg (by simp [ht])]

/-- Helper: a protocol already ending in a colon is unchanged. -/
theorem formatProtocolStr_of_colon (p : String) (h : p.data.getLast? = some ':') :
    formatProtocolStr p = p := by
  unfold formatProtocolStr
  rw [if_neg (by simp [h])]

/-- Helper: the format of a URL with a slashed protocol and a truthy host
decomposes into protocol, slashes, host and a well-shaped tail. -/
theorem format_slashed_decomp (m2 : NodeUrl) (p h : String)
    (hp : m2.protocol = some p) (hpl : p.data.getLast? = some ':')
    (hmem : p ∈ slashedProtocols)
    (hh : m2.host = some h) (hhne : h ≠ "")
    (hpn : m2.pathname = none ∨ ∃ pn : String, m2.pathname = some pn ∧
        pn.data ≠ [] ∧ ∀ c ∈ pn.data, ¬(c = '#' ∨ c = '?'))
    (hse : m2.search = none ∨ ∃ se : String, m2.search = some se ∧
        (∃ t, se.data = '?' :: t) ∧ ∀ c ∈ se.data, ¬(c = '#'))
    (hha : m2.hash = none ∨ ∃ ha : String, m2.hash = some ha ∧ ∃ t, ha.data = '#' :: t) :
    ∃ A B C : List Char,
      (NodeUrl.format m2).data = p.data ++ '/' :: '/' :: (h.data ++ (A ++ B ++ C))
      ∧ ((A = [] ∨ ∃ t, A = '/' :: t) ∧ ∀ c ∈ A, ¬(c = '#' ∨ c = '?'))
      ∧ ((B = [] ∨ ∃ t, B = '?' :: t) ∧ ∀ c ∈ B, ¬(c = '#'))
      ∧ (C = [] ∨ ∃ t, C = '#' :: t)
      ∧ A = (formatPathAbs (m2.pathname.getD "")).data
      ∧ B = (m2.search.getD "").data := by
  have hpn0 : m2.pathname.getD "" = "" ∨ ((m2.pathname.getD "").data ≠ []
      ∧ ∀ c ∈ (m2.pathname.getD "").data, ¬(c = '#' ∨ c = '?')) := by
    rcases hpn with h0 | ⟨pn, h0, h1, h2⟩
    · rw [h0]
      exact Or.inl rfl
    · rw [h0]
      exact Or.inr ⟨h1, h2⟩
  have hse0 : m2.search.getD "" = "" ∨ ∃ t, (m2.search.getD "").data = '?' :: t := by
    rcases hse with h0 | ⟨se, h0, h1, _⟩
    · rw [h0]
      exact Or.inl rfl
    · rw [h0]
      exact Or.inr h1
  have hseChars : ∀ c ∈ (m2.search.getD "").data, ¬(c = '#') := by
    rcases hse with h0 | ⟨se, h0, _, h2⟩
    · rw [h0]
      intro c hc
      simp at hc
    · rw [h0]
      exact h2
  have hha0 : m2.hash.getD "" = "" ∨ ∃ t, (m2.hash.getD "").data = '#' :: t := by
    rcases hha with h0 | ⟨ha, h0, h1⟩
    · rw [h0]
      exact Or.inl rfl
    · rw [h0]
      exact Or.inr h1
  have hA := formatPathAbs_shape (m2.pathname.getD "") hpn0
  have hBeq := formatSearchStr_of_shape (m2.search.getD "") hse0
  have hCeq := formatHashStr_of_shape (m2.hash.getD "") hha0
  refine ⟨(formatPathAbs (m2.pathname.getD "")).data, (m2.search.getD "").data,
    (m2.hash.getD "").data, ?_, ?_, ?_, ?_, rfl, rfl⟩
  · unfold NodeUrl.format
    rw [hp, hh]
    dsimp only
    rw [isEmpty_false_of_ne h hhne]
    rw [if_neg Bool.false_ne_true]
    dsimp only
    simp only [Option.getD_some]
    rw [formatProtocolStr_of_colon p hpl]
    have hcont : slashedProtocols.contains p = true := List.elem_iff.mpr hmem
    rw [hcont, Bool.or_true, if_pos rfl]
    rw [hBeq, hCeq]
    simp [String.data_append, List.append_assoc]
  · refine ⟨?_, hA.2⟩
    rcases hA.1 with h0 | h0
    · exact Or.inl h0
    · right
      cases hd : (formatPathAbs (m2.pathname.getD "")).data with
      | nil => rw [hd] at h0; cases h0
      | cons a t =>
        rw [hd] at h0
        simp only [List.head?_cons, Option.some.injEq] at h0
        exact ⟨t, by rw [h0]⟩
  · exact ⟨hse0.imp (fun h0 => by rw [h0]) id, hseChars⟩
  · exact hha0.imp (fun h0 => by rw [h0]) id

/-- Helper: appending on the right keeps a string non-empty. -/
theorem append_data_ne_nil (s t : String) (h : s.data ≠ []) : (s ++ t).data ≠ [] := by
  rw [String.data_append]
  intro he
  exact h (List.append_eq_nil.mp he).1

/-- Helper: the format of a URL with a non-empty protocol is non-empty. -/
theorem format_ne_empty (u : NodeUrl) (p0 : String) (hp : u.protocol = some p0)
    (hne : p0.data ≠ []) : NodeUrl.format u ≠ "" := by
  have hplen : (formatProtocolStr p0).data ≠ [] := by
    unfold formatProtocolStr
    split
    · rw [String.data_append]
      intro he
      exact hne (List.append_eq_nil.mp he).1
    · exact hne
  have hmain : (NodeUrl.format u).data ≠ [] := by
    unfold NodeUrl.format
    rw [hp]
    dsimp only
    simp only [Option.getD_some]
    rcases hH : u.host with _ | h0
    · dsimp only
      exact append_data_ne_nil _ _ (append_data_ne_nil _ _ (append_data_ne_nil _ _ hplen))
    · dsimp only
      by_cases he : h0.isEmpty = true
      · rw [if_pos he]
        dsimp only
        exact append_data_ne_nil _ _ (append_data_ne_nil _ _ (append_data_ne_nil _ _ hplen))
      · rw [if_neg he]
        dsimp only
        by_cases hs : (u.slashes || slashedProtocols.contains (formatProtocolStr p0)) = true
        · rw [if_pos hs]
          exact append_data_ne_nil _ _ (append_data_ne_nil _ _ (append_data_ne_nil _ _
            (append_data_ne_nil _ _ (append_data_ne_nil _ _ hplen))))
        · rw [if_neg hs]
          exact append_data_ne_nil _ _ (append_data_ne_nil _ _ (append_data_ne_nil _ _
            (append_data_ne_nil _ _ hplen)))
  intro he
  apply hmain
  rw [he]

/-- Helper: re-parsing a formatted URL with slashed protocol, well-formed
lowercase host and well-shaped tail recovers the protocol and the host, a
non-empty pathname (defaulted to the root when the tail has none) and a
non-empty href. -/
theorem urlParse_reassembled (core hd A B C : List Char)
    (hcne : core ≠ []) (hcoreChars : ∀ c ∈ core, protoChar c = true ∧ Char.toLower c = c)
    (hslash : slashedProtocols.contains ((core ++ [':']).asString) = true)
    (hhd : hd ≠ []) (hhdChars : ∀ c ∈ hd, ¬(c = '/' ∨ c = '?' ∨ c = '#'))
    (hhdLow : toLowerChars hd = hd)
    (hA : (A = [] ∨ ∃ t, A = '/' :: t) ∧ ∀ c ∈ A, ¬(c = '#' ∨ c = '?'))
    (hB : (B = [] ∨ ∃ t, B = '?' :: t) ∧ ∀ c ∈ B, ¬(c = '#'))
    (hC : C = [] ∨ ∃ t, C = '#' :: t) :
    (urlParseChars (core ++ ':' :: '/' :: '/' :: (hd ++ (A ++ B ++ C)))).protocol
        = some ((core ++ [':']).asString)
    ∧ (urlParseChars (core ++ ':' :: '/' :: '/' :: (hd ++ (A ++ B ++ C)))).host
        = some hd.asString
    ∧ (∃ pn : String,
        (urlParseChars (core ++ ':' :: '/' :: '/' :: (hd ++ (A ++ B ++ C)))).pathname = some pn
        ∧ pn ≠ "")
    ∧ (urlParseChars (core ++ ':' :: '/' :: '/' :: (hd ++ (A ++ B ++ C)))).href ≠ ""
    ∧ (urlParseChars (core ++ ':' :: '/' :: '/' :: (hd ++ (A ++ B ++ C)))).pathname
        = (if A.isEmpty then some "/" else some (List.asString A))
    ∧ (urlParseChars (core ++ ':' :: '/' :: '/' :: (hd ++ (A ++ B ++ C)))).search
        = (if B.isEmpty then none else some (List.asString B)) := by
  have hpr := parseProtocolChars_wf core ('/' :: '/' :: (hd ++ (A ++ B ++ C))) hcne hcoreChars
  have hsl : (['/', '/'] : List Char).isPrefixOf ('/' :: '/' :: (hd ++ (A ++ B ++ C)))
      = true := by simp [List.isPrefixOf]
  have hq : ∀ c ∈ hd, (!(c = '/' || c = '?' || c = '#')) = true := by
    intro c hc
    have := hhdChars c hc
    push_neg at this
    simp [this.1, this.2.1, this.2.2]
  have hT : (A ++ B ++ C) = [] ∨ ∃ c cs, A ++ B ++ C = c :: cs
      ∧ (!(c = '/' || c = '?' || c = '#')) = false := by
    rcases hA.1 with hAe | ⟨t, hAt⟩
    · rcases hB.1 with hBe | ⟨t, hBt⟩
      · rcases hC with hCe | ⟨t, hCt⟩
        · exact Or.inl (by rw [hAe, hBe, hCe]; rfl)
        · exact Or.inr ⟨'#', t, by rw [hAe, hBe, hCt]; rfl, by decide⟩
      · exact Or.inr ⟨'?', t ++ C, by rw [hAe, hBt]; simp, by decide⟩
    · exact Or.inr ⟨'/', t ++ B ++ C, by rw [hAt]; simp, by decide⟩
  have hrun : (hd ++ (A ++ B ++ C)).takeWhile (fun c => !(c = '/' || c = '?' || c = '#'))
      = hd := takeWhile_append_stop _ hd (A ++ B ++ C) hq hT
  have hasne : List.asString hd ≠ "" := by
    intro h0
    apply hhd
    have h1 := congrArg String.data h0
    rwa [data_asString] at h1
  have hs1 : splitAtFirstChar (fun c => decide (c = '#')) (A ++ B ++ C) = (A ++ B, C) := by
    apply splitAtFirstChar_append
    · intro x hx
      rcases List.mem_append.mp hx with h1 | h1
      · simpa using fun hcon => (hA.2 x h1) (Or.inl hcon)
      · simpa using hB.2 x h1
    · rcases hC with hCe | ⟨t, hCt⟩
      · exact Or.inl hCe
      · exact Or.inr ⟨'#', t, hCt, by decide⟩
  have hs2 : splitAtFirstChar (fun c => decide (c = '?')) (A ++ B) = (A, B) := by
    apply splitAtFirstChar_append
    · intro x hx
      simpa using fun hcon => (hA.2 x hx) (Or.inr hcon)
    · rcases hB.1 with hBe | ⟨t, hBt⟩
      · exact Or.inl hBe
      · exact Or.inr ⟨'?', t, hBt, by decide⟩
  have hpsh : ∀ ps ht : Bool, urlParsePSH (A ++ B ++ C) ps ht
      = (if A.isEmpty then (if ps && ht then some "/" else none) else some A.asString,
         (if B.isEmpty then none else some B.asString),
         (if C.isEmpty then none else some C.asString)) := by
    intro ps ht
    unfold urlParsePSH
    rw [hs1]
    dsimp only
    rw [hs2]
    dsimp only
    by_cases hAe : A.isEmpty = true
    · rw [if_pos hAe, if_pos hAe]
      simp
    · rw [if_neg hAe, if_neg hAe]
      simp
  unfold urlParseChars
  rw [hpr]
  dsimp only
  rw [hsl]
  simp only [reduceIte, List.drop_succ_cons, List.drop_zero]
  rw [hrun, hhdLow]
  rw [List.drop_left]
  simp only [Option.map_some']
  rw [hslash]
  rw [isEmpty_false_of_ne (List.asString hd) hasne]
  rw [hpsh]
  refine ⟨by trivial, by trivial, ?_, ?_, ?_, ?_⟩
  · by_cases hAe : A.isEmpty = true
    · rw [if_pos hAe]
      dsimp only
      exact ⟨"/", rfl, by decide⟩
    · rw [if_neg hAe]
      refine ⟨A.asString, rfl, ?_⟩
      intro h0
      apply hAe
      have h1 := congrArg String.data h0
      rw [data_asString] at h1
      rw [h1]
      rfl
  · apply format_ne_empty _ ((core ++ [':']).asString) rfl
    rw [data_asString]
    simp
  · by_cases hAe : A.isEmpty = true
    · rw [if_pos hAe, if_pos hAe]
      rfl
    · rw [if_neg hAe, if_neg hAe]
  · rfl

/-- Helper: every slashed protocol is a non-empty lowercase name followed by
a colon. -/
theorem slashedProtocols_core (p : String) (hmem : p ∈ slashedProtocols) :
    ∃ core : List Char, p.data = core ++ [':'] ∧ core ≠ []
      ∧ (∀ c ∈ core, protoChar c = true ∧ Char.toLower c = c)
      ∧ p.data.getLast? = some ':' := by
  simp only [slashedProtocols, List.mem_cons, List.mem_singleton,
    List.not_mem_nil, or_false] at hmem
  rcases hmem with h | h | h | h | h | h | h <;> rw [h]
  · exact ⟨"http".data, rfl, by decide, by decide, by decide⟩
  · exact ⟨"https".data, rfl, by decide, by decide, by decide⟩
  · exact ⟨"ftp".data, rfl, by decide, by decide, by decide⟩
  · exact ⟨"gopher".data, rfl, by decide, by decide, by decide⟩
  · exact ⟨"file".data, rfl, by decide, by decide, by decide⟩
  · exact ⟨"ws".data, rfl, by decide, by decide, by decide⟩
  · exact ⟨"wss".data, rfl, by decide, by decide, by decide⟩

/-- Helper: shapes of the pathname, search and hash fields of a parsed URL. -/
theorem urlParseChars_shapes (l : List Char) :
    ((urlParseChars l).pathname = none ∨ ∃ pn : String, (urlParseChars l).pathname = some pn ∧
        pn.data ≠ [] ∧ ∀ c ∈ pn.data, ¬(c = '#' ∨ c = '?'))
    ∧ ((urlParseChars l).search = none ∨ ∃ se : String, (urlParseChars l).search = some se ∧
        (∃ t, se.data = '?' :: t) ∧ ∀ c ∈ se.data, ¬(c = '#'))
    ∧ ((urlParseChars l).hash = none ∨ ∃ ha : String, (urlParseChars l).hash = some ha ∧
        ∃ t, ha.data = '#' :: t) :=
  urlParsePSH_shapes _ _ _

/-- Helper: overwriting protocol and host and re-parsing the format yields
exactly that protocol and host, a non-empty pathname and a non-empty href;
moreover the pathname is the input's pathname made absolute (defaulted to the
root when absent) and the search is the input's search verbatim. -/
theorem parse_format_overwrite (m : NodeUrl) (p h : String)
    (hmem : p ∈ slashedProtocols) (hhne : h ≠ "")
    (hhChars : ∀ c ∈ h.data, ¬(c = '/' ∨ c = '?' ∨ c = '#'))
    (hhLow : toLowerChars h.data = h.data)
    (hpn : m.pathname = none ∨ ∃ pn : String, m.pathname = some pn ∧
        pn.data ≠ [] ∧ ∀ c ∈ pn.data, ¬(c = '#' ∨ c = '?'))
    (hse : m.search = none ∨ ∃ se : String, m.search = some se ∧
        (∃ t, se.data = '?' :: t) ∧ ∀ c ∈ se.data, ¬(c = '#'))
    (hha : m.hash = none ∨ ∃ ha : String, m.hash = some ha ∧ ∃ t, ha.data = '#' :: t) :
    (urlParseChars (NodeUrl.format { m with protocol := some p, host := some h }).data).protocol
        = some p
    ∧ (urlParseChars (NodeUrl.format { m with protocol := some p, host := some h }).data).host
        = some h
    ∧ (∃ pn : String, (urlParseChars (NodeUrl.format { m with protocol := some p, host := some h }).data).pathname = some pn ∧ pn ≠ "")
    ∧ (urlParseChars (NodeUrl.format { m with protocol := some p, host := some h }).data).href ≠ ""
    ∧ (urlParseChars (NodeUrl.format { m with protocol := some p, host := some h }).data).pathname
        = some (formatPathAbs (m.pathname.getD "/"))
    ∧ (urlParseChars (NodeUrl.format { m with protocol := some p, host := some h }).data).search
        = m.search := by
  obtain ⟨core, hcek, hcne, hcoreChars, hplast⟩ := slashedProtocols_core p hmem
  obtain ⟨A, B, C, hfmt, hAsh, hBsh, hCsh, hAeq, hBeq2⟩ :=
    format_slashed_decomp { m with protocol := some p, host := some h } p h rfl hplast hmem
      rfl hhne hpn hse hha
  have hfmt2 : (NodeUrl.format { m with protocol := some p, host := some h }).data
      = core ++ ':' :: '/' :: '/' :: (h.data ++ (A ++ B ++ C)) := by
    rw [hfmt, hcek]
    simp [List.append_assoc]
  have hslash2 : slashedProtocols.contains ((core ++ [':']).asString) = true := by
    have hps : (core ++ [':']).asString = p := by
      rw [← hcek]
      exact asString_data p
    rw [hps]
    exact List.elem_iff.mpr hmem
  have hhdne : h.data ≠ [] := by
    intro h0
    apply hhne
    rw [← asString_data h, h0]
    rfl
  have hre := urlParse_reassembled core h.data A B C hcne hcoreChars hslash2
    hhdne hhChars hhLow hAsh hBsh hCsh
  rw [hfmt2]
  refine ⟨?_, ?_, hre.2.2.1, hre.2.2.2.1, ?_, ?_⟩
  · rw [hre.1, ← hcek, asString_data]
  · rw [hre.2.1, asString_data]
  · rw [hre.2.2.2.2.1, hAeq]
    dsimp only
    rcases hpn with h0 | ⟨pn, h0, h1, _⟩
    · rw [h0]
      decide
    · rw [h0]
      simp only [Option.getD_some]
      have hAne : (formatPathAbs pn).data ≠ [] := by
        unfold formatPathAbs
        split
        · rw [String.data_append]
          simp
        · exact h1
      rw [if_neg (by
        intro hcon
        exact hAne (List.isEmpty_iff.mp hcon))]
      rw [asString_data]
  · rw [hre.2.2.2.2.2, hBeq2]
    dsimp only
    rcases hse with h0 | ⟨se, h0, ⟨t, hset⟩, _⟩
    · rw [h0]
      rfl
    · rw [h0]
      simp only [Option.getD_some]
      rw [if_neg (by rw [hset]; simp)]
      rw [asString_data]

/-- Claim C7 (confirmed).  Whenever `getSourceMapURL` finds a qualifying
map-reference match (the extracted relative URL is present and truthy), the
returned location carries the script URL's scheme and host together with the
matched value's path and query (the pathname made absolute, defaulted to `/`
when absent), and exposes a non-empty pathname string and a full (non-empty)
href; when no qualifying match exists it returns null.  The script URL is
assumed to carry a slashed protocol and a well-formed lowercase host, as
`url.parse` produces for any http(s) bundle URL. -/
theorem getSourceMapURL_inherits_scheme_host
    (scriptUrl : NodeUrl) (body : String) (p h : String)
    (hp : scriptUrl.protocol = some p) (hmem : p ∈ slashedProtocols)
    (hh : scriptUrl.host = some h) (hhne : h ≠ "")
    (hhChars : ∀ c ∈ h.data, ¬(c = '/' ∨ c = '?' ∨ c = '#'))
    (hhLow : toLowerChars h.data = h.data) :
    (∀ v : String, getSourceMapRelativeUrl body = some v → v ≠ "" →
      ∃ u : NodeUrl, getSourceMapURL scriptUrl body = some u
        ∧ u.protocol = some p ∧ u.host = some h
        ∧ (∃ pn : String, u.pathname = some pn ∧ pn ≠ "") ∧ u.href ≠ ""
        ∧ u.pathname = some (formatPathAbs ((urlParse v).pathname.getD "/"))
        ∧ u.search = (urlParse v).search)
    ∧ (getSourceMapRelativeUrl body = none → getSourceMapURL scriptUrl body = none) := by
  constructor
  · intro v hv hvne
    unfold getSourceMapURL
    rw [hv]
    dsimp only
    rw [if_neg (by simp [isEmpty_false_of_ne v hvne])]
    rw [hp, hh]
    have hsh := urlParseChars_shapes v.data
    have hlem := parse_format_overwrite (urlParse v) p h hmem hhne hhChars hhLow
      hsh.1 hsh.2.1 hsh.2.2
    exact ⟨_, rfl, hlem.1, hlem.2.1, hlem.2.2.1, hlem.2.2.2.1, hlem.2.2.2.2.1,
      hlem.2.2.2.2.2⟩
  · intro h0
    unfold getSourceMapURL
    rw [h0]

/-- Witness for C7 at a concrete bundle URL and script body, and at a body
with no map reference. -/
theorem getSourceMapURL_inherits_scheme_host_witness :
    (∃ u : NodeUrl,
      getSourceMapURL (urlParse "http://localhost:8081/index.ios.bundle?platform=ios")
          "//# sourceMappingURL=/index.ios.map?platform=ios" = some u
      ∧ u.protocol = some "http:" ∧ u.host = some "localhost:8081"
      ∧ (∃ pn : String, u.pathname = some pn ∧ pn ≠ "") ∧ u.href ≠ ""
      ∧ u.pathname
        = some (formatPathAbs ((urlParse "/index.ios.map?platform=ios").pathname.getD "/"))
      ∧ u.search = (urlParse "/index.ios.map?platform=ios").search)
    ∧ getSourceMapURL (urlParse "http://localhost:8081/index.ios.bundle?platform=ios")
        "no map comment here" = none :=
  ⟨(getSourceMapURL_inherits_scheme_host
      (urlParse "http://localhost:8081/index.ios.bundle?platform=ios")
      "//# sourceMappingURL=/index.ios.map?platform=ios" "http:" "localhost:8081"
      rfl (by decide) rfl (by decide) (by decide) rfl).1
      "/index.ios.map?platform=ios" rfl (by decide),
   (getSourceMapURL_inherits_scheme_host
      (urlParse "http://localhost:8081/index.ios.bundle?platform=ios")
      "no map comment here" "http:" "localhost:8081"
      rfl (by decide) rfl (by decide) (by decide) rfl).2 rfl⟩

/-! Claim C9: idempotence of the document rewrite.  The lemmas below develop
the path algebra of the POSIX model: equation lemmas for the normalization
stack, splitting and joining of segment lists, and the key fixpoint facts
showing that a relative path of the form `../../a/b` produced by
`path.posix.relative` is left unchanged by `makeUnixStylePath` and maps back
to the same resolved segments when the process working directory equals the
sources root. -/


theorem normAcc_nil (ab : Bool) (acc : List (List Char)) : normAcc ab acc [] = acc := rfl

theorem normAcc_skip (ab : Bool) (acc : List (List Char)) (s : List Char)
    (rest : List (List Char)) (hs : (s = [] ∨ s = ['.'])) :
    normAcc ab acc (s :: rest) = normAcc ab acc rest := by
  rcases hs with h | h <;> subst h <;> rfl

theorem normAcc_dd_nil (ab : Bool) (rest : List (List Char)) :
    normAcc ab [] (['.', '.'] :: rest)
      = if ab then normAcc ab [['.', '.']] rest else normAcc ab [] rest := rfl

theorem normAcc_dd_cons (ab : Bool) (a : List Char) (as rest : List (List Char)) :
    normAcc ab (a :: as) (['.', '.'] :: rest)
      = if a = ['.', '.'] then normAcc ab (['.', '.'] :: a :: as) rest
        else normAcc ab as rest := rfl

theorem normAcc_push (ab : Bool) (acc : List (List Char)) (s : List Char)
    (rest : List (List Char)) (h1 : s ≠ [] ∧ s ≠ ['.']) (h2 : s ≠ ['.', '.']) :
    normAcc ab acc (s :: rest) = normAcc ab (s :: acc) rest := by
  nth_rewrite 1 [normAcc.eq_def]
  dsimp only
  rw [if_neg (by simp [h1.1, h1.2]), if_neg h2]

theorem normAcc_append (ab : Bool) : ∀ (xs ys acc : List (List Char)),
    normAcc ab acc (xs ++ ys) = normAcc ab (normAcc ab acc xs) ys := by
  intro xs
  induction xs with
  | nil => intro ys acc; rfl
  | cons s rest ih =>
    intro ys acc
    rw [List.cons_append]
    by_cases h1 : s = [] ∨ s = ['.']
    · rw [normAcc_skip ab acc s _ h1, normAcc_skip ab acc s _ h1]
      exact ih ys acc
    · by_cases h2 : s = ['.', '.']
      · subst h2
        cases acc with
        | nil =>
          rw [normAcc_dd_nil, normAcc_dd_nil]
          by_cases h3 : ab = true
          · rw [if_pos h3, if_pos h3]
            exact ih ys _
          · rw [if_neg h3, if_neg h3]
            exact ih ys _
        | cons a as =>
          rw [normAcc_dd_cons, normAcc_dd_cons]
          by_cases h4 : a = ['.', '.']
          · rw [if_pos h4, if_pos h4]
            exact ih ys _
          · rw [if_neg h4, if_neg h4]
            exact ih ys _
      · push_neg at h1
        rw [normAcc_push ab acc s _ h1 h2, normAcc_push ab _ s _ h1 h2]
        exact ih ys _

theorem normAcc_clean_push (ab : Bool) : ∀ (xs acc : List (List Char)),
    (∀ s ∈ xs, cleanSeg s) → normAcc ab acc xs = xs.reverse ++ acc := by
  intro xs
  induction xs with
  | nil => intro acc _; rfl
  | cons s rest ih =>
    intro acc h
    have hs := h s (List.mem_cons_self _ _)
    rw [normAcc_push ab acc s rest ⟨hs.1, hs.2.1⟩ hs.2.2]
    rw [ih (s :: acc) (fun q hq => h q (List.mem_cons_of_mem _ hq))]
    simp

theorem normAcc_pop : ∀ (l acc : List (List Char)),
    (∀ s ∈ l, cleanSeg s) →
    normAcc false (l ++ acc) (List.replicate l.length ['.', '.']) = acc := by
  intro l
  induction l with
  | nil => intro acc _; rfl
  | cons s rest ih =>
    intro acc h
    have hs := h s (List.mem_cons_self _ _)
    rw [List.length_cons, List.replicate_succ, List.cons_append]
    rw [normAcc_dd_cons, if_neg hs.2.2]
    exact ih acc (fun q hq => h q (List.mem_cons_of_mem _ hq))

theorem normAcc_clean_out : ∀ (xs acc : List (List Char)),
    (∀ s ∈ acc, cleanSeg s ∧ '/' ∉ s) → (∀ s ∈ xs, '/' ∉ s) →
    ∀ s ∈ normAcc false acc xs, cleanSeg s ∧ '/' ∉ s := by
  intro xs
  induction xs with
  | nil => intro acc hacc _ s hm; exact hacc s hm
  | cons s rest ih =>
    intro acc hacc hxs q hq
    have hxrest : ∀ t ∈ rest, '/' ∉ t := fun t ht => hxs t (List.mem_cons_of_mem _ ht)
    by_cases h1 : s = [] ∨ s = ['.']
    · rw [normAcc_skip false acc s rest h1] at hq
      exact ih acc hacc hxrest q hq
    · by_cases h2 : s = ['.', '.']
      · subst h2
        cases acc with
        | nil =>
          rw [normAcc_dd_nil, if_neg (by decide)] at hq
          exact ih [] (by simp) hxrest q hq
        | cons a as =>
          have ha := hacc a (List.mem_cons_self _ _)
          rw [normAcc_dd_cons, if_neg ha.1.2.2] at hq
          exact ih as (fun t ht => hacc t (List.mem_cons_of_mem _ ht)) hxrest q hq
      · push_neg at h1
        rw [normAcc_push false acc s rest h1 h2] at hq
        refine ih (s :: acc) ?_ hxrest q hq
        intro t ht
        rcases List.mem_cons.mp ht with h3 | h3
        · subst h3
          exact ⟨⟨h1.1, h1.2, h2⟩, hxs t (List.mem_cons_self _ _)⟩
        · exact hacc t h3

theorem normAcc_dots : ∀ (m j : Nat),
    normAcc true (List.replicate j ['.', '.']) (List.replicate m ['.', '.'])
      = List.replicate (j + m) ['.', '.'] := by
  intro m
  induction m with
  | zero => intro j; rfl
  | succ m ih =>
    intro j
    rw [List.replicate_succ]
    cases j with
    | zero =>
      rw [show List.replicate 0 (['.', '.'] : List Char) = [] from rfl]
      rw [normAcc_dd_nil, if_pos rfl]
      rw [show ([['.', '.']] : List (List Char)) = List.replicate 1 ['.', '.'] from rfl]
      rw [ih 1]
      congr 1
      omega
    | succ j =>
      rw [List.replicate_succ]
      rw [normAcc_dd_cons, if_pos rfl]
      rw [show (['.', '.'] :: ['.', '.'] :: List.replicate j (['.', '.'] : List Char))
        = List.replicate (j + 2) ['.', '.'] from by simp [List.replicate_succ]]
      rw [ih (j + 2)]
      congr 1
      omega

theorem splitOnPred_ne_nil (p : Char → Bool) : ∀ l, splitOnPred p l ≠ [] := by
  intro l
  cases l with
  | nil => simp [splitOnPred]
  | cons c cs =>
    unfold splitOnPred
    by_cases h : p c = true
    · simp [h]
    · rw [if_neg h]
      cases hsp : splitOnPred p cs with
      | nil => simp
      | cons x xs => simp

theorem splitOnPred_cons_of_neg (p : Char → Bool) (c : Char) (cs : List Char)
    (hc : p c = false) :
    ∃ x xs, splitOnPred p cs = x :: xs ∧ splitOnPred p (c :: cs) = (c :: x) :: xs := by
  cases hsp : splitOnPred p cs with
  | nil => exact absurd hsp (splitOnPred_ne_nil p cs)
  | cons x xs =>
    refine ⟨x, xs, rfl, ?_⟩
    unfold splitOnPred
    rw [if_neg (by simp [hc]), hsp]

theorem splitOnPred_cons_pos (p : Char → Bool) (c : Char) (cs : List Char)
    (hc : p c = true) : splitOnPred p (c :: cs) = [] :: splitOnPred p cs := by
  nth_rewrite 1 [splitOnPred.eq_def]
  dsimp only
  rw [if_pos hc]

theorem splitOnPred_append_sep (p : Char → Bool) (c : Char) (hc : p c = true) :
    ∀ a b, splitOnPred p (a ++ c :: b) = splitOnPred p a ++ splitOnPred p b := by
  intro a
  induction a with
  | nil =>
    intro b
    rw [List.nil_append, splitOnPred_cons_pos p c b hc]
    rfl
  | cons d ds ih =>
    intro b
    rw [List.cons_append]
    by_cases hd : p d = true
    · rw [splitOnPred_cons_pos p d _ hd, splitOnPred_cons_pos p d ds hd, ih b]
      rfl
    · obtain ⟨x, xs, hx, hcons⟩ := splitOnPred_cons_of_neg p d (ds ++ c :: b)
        (Bool.not_eq_true _ |>.mp hd)
      rw [hcons]
      obtain ⟨y, ys, hy, hcons2⟩ := splitOnPred_cons_of_neg p d ds
        (Bool.not_eq_true _ |>.mp hd)
      rw [hcons2]
      rw [ih b, hy] at hx
      rw [List.cons_append] at hx ⊢
      injection hx with hx1 hx2
      rw [hx1, hx2]

theorem splitOnPred_no_sep (p : Char → Bool) : ∀ s, (∀ x ∈ s, p x = false) →
    splitOnPred p s = [s] := by
  intro s
  induction s with
  | nil => intro _; rfl
  | cons c cs ih =>
    intro h
    obtain ⟨x, xs, hx, hcons⟩ := splitOnPred_cons_of_neg p c cs
      (h c (List.mem_cons_self _ _))
    rw [hcons]
    rw [ih (fun y hy => h y (List.mem_cons_of_mem _ hy))] at hx
    injection hx with hx1 hx2
    rw [hx1, hx2]

theorem splitOnPred_sep_free (p : Char → Bool) : ∀ l, ∀ x ∈ splitOnPred p l, ∀ c ∈ x,
    p c = false := by
  intro l
  induction l with
  | nil =>
    intro x hx c hc
    simp only [splitOnPred, List.mem_singleton] at hx
    rw [hx] at hc
    simp at hc
  | cons d ds ih =>
    intro x hx c hc
    by_cases hd : p d = true
    · rw [splitOnPred_cons_pos p d ds hd] at hx
      rcases List.mem_cons.mp hx with h1 | h1
      · rw [h1] at hc
        simp at hc
      · exact ih x h1 c hc
    · obtain ⟨y, ys, hy, hcons⟩ := splitOnPred_cons_of_neg p d ds
        (Bool.not_eq_true _ |>.mp hd)
      rw [hcons] at hx
      rcases List.mem_cons.mp hx with h1 | h1
      · rw [h1] at hc
        rcases List.mem_cons.mp hc with h2 | h2
        · rw [h2]
          exact Bool.not_eq_true _ |>.mp hd
        · exact ih y (by rw [hy]; exact List.mem_cons_self _ _) c h2
      · exact ih x (by rw [hy]; exact List.mem_cons_of_mem _ h1) c hc

theorem joinSegs_cons (s : List Char) (r : List Char) (rs : List (List Char)) :
    joinSegs (s :: r :: rs) = s ++ '/' :: joinSegs (r :: rs) := rfl

theorem splitOnPred_joinSegs : ∀ segs : List (List Char), segs ≠ [] →
    (∀ s ∈ segs, ∀ c ∈ s, (decide (c = '/')) = false) →
    splitOnPred (fun c => decide (c = '/')) (joinSegs segs) = segs := by
  intro segs
  induction segs with
  | nil => intro h _; exact absurd rfl h
  | cons s rest ih =>
    intro _ hfree
    cases rest with
    | nil =>
      show splitOnPred (fun c => decide (c = '/')) s = [s]
      exact splitOnPred_no_sep _ s (hfree s (List.mem_cons_self _ _))
    | cons r rs =>
      rw [joinSegs_cons]
      rw [splitOnPred_append_sep (fun c => decide (c = '/')) '/' (by decide) s (joinSegs (r :: rs))]
      rw [splitOnPred_no_sep _ s (hfree s (List.mem_cons_self _ _))]
      rw [ih (by simp) (fun t ht c hc => hfree t (List.mem_cons_of_mem _ ht) c hc)]
      rfl

theorem joinSegs_head (s : List Char) (rest : List (List Char)) (hs : s ≠ []) :
    (joinSegs (s :: rest)).head? = s.head? := by
  cases rest with
  | nil => rfl
  | cons r rs =>
    rw [joinSegs_cons]
    cases s with
    | nil => exact absurd rfl hs
    | cons a as => rfl

theorem joinSegs_ne_nil (s : List Char) (rest : List (List Char)) (hs : s ≠ []) :
    joinSegs (s :: rest) ≠ [] := by
  intro h
  have h1 := joinSegs_head s rest hs
  rw [h] at h1
  cases s with
  | nil => exact absurd rfl hs
  | cons a as => cases h1

theorem getLast?_mem : ∀ (l : List Char) (c : Char), l.getLast? = some c → c ∈ l := by
  intro l
  induction l with
  | nil => intro c h; cases h
  | cons a as ih =>
    intro c h
    cases as with
    | nil =>
      simp only [List.getLast?_singleton, Option.some.injEq] at h
      rw [h]
      exact List.mem_singleton_self c
    | cons b bs =>
      rw [List.getLast?_cons_cons] at h
      exact List.mem_cons_of_mem a (ih c h)

theorem joinSegs_getLast_ne_slash : ∀ segs : List (List Char), segs ≠ [] →
    (∀ s ∈ segs, s ≠ [] ∧ '/' ∉ s) →
    ∃ c, (joinSegs segs).getLast? = some c ∧ c ≠ '/' := by
  intro segs
  induction segs with
  | nil => intro h _; exact absurd rfl h
  | cons s rest ih =>
    intro _ hall
    cases rest with
    | nil =>
      have hs := hall s (List.mem_cons_self _ _)
      show ∃ c, s.getLast? = some c ∧ c ≠ '/'
      cases hl : s.getLast? with
      | none => exact absurd (List.getLast?_eq_none_iff.mp hl) hs.1
      | some c =>
        exact ⟨c, rfl, fun hcon => hs.2 (hcon ▸ getLast?_mem s c hl)⟩
    | cons r rs =>
      obtain ⟨c, hc1, hc2⟩ := ih (by simp) (fun t ht => hall t (List.mem_cons_of_mem _ ht))
      refine ⟨c, ?_, hc2⟩
      have hne := joinSegs_ne_nil r rs (hall r (List.mem_cons_of_mem _
        (List.mem_cons_self _ _))).1
      have hstep : ('/' :: joinSegs (r :: rs)).getLast? = (joinSegs (r :: rs)).getLast? := by
        cases hj : joinSegs (r :: rs) with
        | nil => exact absurd hj hne
        | cons x xs => rw [List.getLast?_cons_cons]
      rw [joinSegs_cons, List.getLast?_append, hstep, hc1]
      rfl

theorem noDS_of_slashFree : ∀ s : List Char, '/' ∉ s → noDoubleSlash s := by
  intro s
  induction s with
  | nil => intro _; trivial
  | cons a as ih =>
    intro h
    cases as with
    | nil => trivial
    | cons b bs =>
      refine ⟨fun hcon => h (by rw [hcon.1]; exact List.mem_cons_self _ _), ?_⟩
      exact ih (fun hmem => h (List.mem_cons_of_mem _ hmem))

theorem noDS_append_sep : ∀ (s j : List Char), '/' ∉ s → noDoubleSlash j →
    j.head? ≠ some '/' → noDoubleSlash (s ++ '/' :: j) := by
  intro s
  induction s with
  | nil =>
    intro j _ hj hjh
    rw [List.nil_append]
    cases j with
    | nil => trivial
    | cons b bs =>
      refine ⟨fun hcon => hjh (by rw [hcon.2]; rfl), hj⟩
  | cons a as ih =>
    intro j hs hj hjh
    rw [List.cons_append]
    have has : '/' ∉ as := fun hmem => hs (List.mem_cons_of_mem _ hmem)
    have hrest := ih j has hj hjh
    cases hcase : as ++ '/' :: j with
    | nil => simp at hcase
    | cons b bs =>
      rw [hcase] at hrest
      refine ⟨fun hcon => hs (by rw [hcon.1]; exact List.mem_cons_self _ _), hrest⟩

theorem noDS_joinSegs : ∀ segs : List (List Char),
    (∀ s ∈ segs, s ≠ [] ∧ '/' ∉ s) → noDoubleSlash (joinSegs segs) := by
  intro segs
  induction segs with
  | nil => intro _; trivial
  | cons s rest ih =>
    intro hall
    cases rest with
    | nil => exact noDS_of_slashFree s (hall s (List.mem_cons_self _ _)).2
    | cons r rs =>
      rw [joinSegs_cons]
      apply noDS_append_sep s (joinSegs (r :: rs)) (hall s (List.mem_cons_self _ _)).2
        (ih (fun t ht => hall t (List.mem_cons_of_mem _ ht)))
      have hr := hall r (List.mem_cons_of_mem _ (List.mem_cons_self _ _))
      rw [joinSegs_head r rs hr.1]
      intro hcon
      cases r with
      | nil => exact absurd rfl hr.1
      | cons x xs =>
        simp only [List.head?_cons, Option.some.injEq] at hcon
        exact hr.2 (by rw [← hcon]; exact List.mem_cons_self _ _)

theorem noDS_tail : ∀ (a : Char) (t : List Char), noDoubleSlash (a :: t) → noDoubleSlash t := by
  intro a t h
  cases t with
  | nil => trivial
  | cons b bs => exact h.2

theorem noDS_drop : ∀ (k : Nat) (l : List Char), noDoubleSlash l → noDoubleSlash (l.drop k) := by
  intro k
  induction k with
  | zero => intro l h; exact h
  | succ k ih =>
    intro l h
    cases l with
    | nil => trivial
    | cons a t =>
      rw [List.drop_succ_cons]
      exact ih t (noDS_tail a t h)

theorem isRemote_false_of_noDS (l : List Char) (h : noDoubleSlash l) :
    isRemoteTestChars l = false := by
  cases hr : isRemoteTestChars l with
  | false => rfl
  | true =>
    exfalso
    unfold isRemoteTestChars at hr
    rcases Bool.and_eq_true .. |>.mp hr with ⟨_, h2⟩
    obtain ⟨t, ht⟩ := List.isPrefixOf_iff_prefix.mp h2
    have hdrop := noDS_drop (l.takeWhile isRemoteClassChar).length l h
    rw [← ht] at hdrop
    exact hdrop.2.1 ⟨rfl, rfl⟩

theorem isRemote_joinSegs_false (segs : List (List Char))
    (hall : ∀ s ∈ segs, s ≠ [] ∧ '/' ∉ s) :
    isRemoteTestChars (joinSegs segs) = false :=
  isRemote_false_of_noDS _ (noDS_joinSegs segs hall)

theorem stripCommon_spec : ∀ xs ys : List (List Char),
    ∃ c, xs = c ++ (stripCommon xs ys).1 ∧ ys = c ++ (stripCommon xs ys).2 := by
  intro xs
  induction xs with
  | nil =>
    intro ys
    exact ⟨[], rfl, rfl⟩
  | cons x xt ih =>
    intro ys
    cases ys with
    | nil => exact ⟨[], rfl, rfl⟩
    | cons y yt =>
      by_cases hxy : x = y
      · obtain ⟨c, hc1, hc2⟩ := ih yt
        subst hxy
        have heq : stripCommon (x :: xt) (x :: yt) = stripCommon xt yt := by
          nth_rewrite 1 [stripCommon.eq_def]
          dsimp only
          rw [if_pos rfl]
        refine ⟨x :: c, ?_, ?_⟩
        · rw [heq, List.cons_append, ← hc1]
        · rw [heq, List.cons_append, ← hc2]
      · have heq : stripCommon (x :: xt) (y :: yt) = (x :: xt, y :: yt) := by
          nth_rewrite 1 [stripCommon.eq_def]
          dsimp only
          rw [if_neg hxy]
        refine ⟨[], ?_, ?_⟩ <;> (rw [heq]; rfl)

theorem stripCommon_ne (xs ys : List (List Char)) (h : xs ≠ ys) :
    ¬((stripCommon xs ys).1 = [] ∧ (stripCommon xs ys).2 = []) := by
  intro ⟨h1, h2⟩
  obtain ⟨c, hc1, hc2⟩ := stripCommon_spec xs ys
  rw [h1] at hc1
  rw [h2] at hc2
  rw [List.append_nil] at hc1 hc2
  exact h (hc1.trans hc2.symm)

/-- Every segment produced by the resolution step is a non-empty, non-dot,
non-dotdot, slash-free segment. -/
theorem resolveSegs_clean (cwd p : List Char) :
    ∀ s ∈ resolveSegs cwd p, cleanSeg s ∧ '/' ∉ s := by
  intro s hs
  unfold resolveSegs normSegs at hs
  rw [List.mem_reverse] at hs
  refine normAcc_clean_out _ [] (by intro t ht; cases ht) ?_ s hs
  intro t ht hslash
  have := splitOnPred_sep_free _ _ t ht '/' hslash
  simp at this

theorem resolveSegs_of_abs (cwd p : List Char) (h : isAbsChars p = true) :
    resolveSegs cwd p = normSegs false (splitOnPred (fun c => decide (c = '/')) p) := by
  unfold resolveSegs
  rw [if_pos h]

theorem resolveSegs_of_nonabs (cwd p : List Char) (h : isAbsChars p = false) :
    resolveSegs cwd p
      = normSegs false (splitOnPred (fun c => decide (c = '/')) (cwd ++ '/' :: p)) := by
  unfold resolveSegs
  rw [if_neg (by rw [h]; exact Bool.false_ne_true)]

/-- Resolving the path consisting of a single dot against an absolute
working directory gives the working directory itself. -/
theorem resolveSegs_dot (root : List Char) (habs : isAbsChars root = true) :
    resolveSegs root ['.'] = resolveSegs root root := by
  rw [resolveSegs_of_nonabs root ['.'] (by decide), resolveSegs_of_abs root root habs]
  unfold normSegs
  congr 1
  rw [splitOnPred_append_sep _ '/' (by decide) root ['.']]
  rw [splitOnPred_no_sep _ ['.'] (by intro x hx; rw [List.mem_singleton.mp hx]; decide)]
  rw [normAcc_append]
  rw [normAcc_skip false _ ['.'] [] (Or.inr rfl)]
  rfl

theorem dots_segs_facts (m : Nat) (t : List (List Char))
    (ht : ∀ s ∈ t, cleanSeg s ∧ '/' ∉ s) :
    ∀ s ∈ List.replicate m ['.', '.'] ++ t, s ≠ [] ∧ '/' ∉ s := by
  intro s hs
  rcases List.mem_append.mp hs with h | h
  · rw [List.eq_of_mem_replicate h]
    exact ⟨by decide, by decide⟩
  · exact ⟨(ht s h).1.1, (ht s h).2⟩

theorem joinSegs_dots_head (m : Nat) (t : List (List Char))
    (ht : ∀ s ∈ t, cleanSeg s ∧ '/' ∉ s)
    (hne : List.replicate m ['.', '.'] ++ t ≠ []) :
    ∃ c, (joinSegs (List.replicate m ['.', '.'] ++ t)).head? = some c ∧ c ≠ '/' := by
  cases m with
  | zero =>
    rw [List.replicate_zero, List.nil_append] at hne ⊢
    cases t with
    | nil => exact absurd rfl hne
    | cons s rest =>
      have hs := ht s (List.mem_cons_self _ _)
      rw [joinSegs_head s rest hs.1.1]
      cases s with
      | nil => exact absurd rfl hs.1.1
      | cons a as =>
        exact ⟨a, rfl, fun hcon => hs.2 (by rw [← hcon]; exact List.mem_cons_self _ _)⟩
  | succ m =>
    rw [List.replicate_succ, List.cons_append]
    rw [joinSegs_head _ _ (by decide)]
    exact ⟨'.', rfl, by decide⟩

theorem joinSegs_dots_ne_nil (m : Nat) (t : List (List Char))
    (ht : ∀ s ∈ t, cleanSeg s ∧ '/' ∉ s)
    (hne : List.replicate m ['.', '.'] ++ t ≠ []) :
    joinSegs (List.replicate m ['.', '.'] ++ t) ≠ [] := by
  intro h
  obtain ⟨c, hc, _⟩ := joinSegs_dots_head m t ht hne
  rw [h] at hc
  cases hc

theorem normSegs_dots_clean (m : Nat) (t : List (List Char))
    (ht : ∀ s ∈ t, cleanSeg s) :
    normSegs true (List.replicate m ['.', '.'] ++ t) = List.replicate m ['.', '.'] ++ t := by
  unfold normSegs
  rw [normAcc_append]
  have h0 := normAcc_dots m 0
  rw [List.replicate_zero, Nat.zero_add] at h0
  rw [h0]
  rw [normAcc_clean_push true t _ ht]
  rw [List.reverse_append, List.reverse_reverse, List.reverse_replicate]

theorem split_joinSegs_dots (m : Nat) (t : List (List Char))
    (ht : ∀ s ∈ t, cleanSeg s ∧ '/' ∉ s)
    (hne : List.replicate m ['.', '.'] ++ t ≠ []) :
    splitOnPred (fun c => decide (c = '/')) (joinSegs (List.replicate m ['.', '.'] ++ t))
      = List.replicate m ['.', '.'] ++ t := by
  refine splitOnPred_joinSegs _ hne ?_
  intro s hs c hc
  have hfree := (dots_segs_facts m t ht s hs).2
  simp only [decide_eq_false_iff_not]
  intro hcon
  rw [hcon] at hc
  exact hfree hc

theorem posixNormalize_rel_fix (m : Nat) (t : List (List Char))
    (ht : ∀ s ∈ t, cleanSeg s ∧ '/' ∉ s)
    (hne : List.replicate m ['.', '.'] ++ t ≠ []) :
    posixNormalizeChars (joinSegs (List.replicate m ['.', '.'] ++ t))
      = joinSegs (List.replicate m ['.', '.'] ++ t) := by
  have hrelne := joinSegs_dots_ne_nil m t ht hne
  have hempty : (joinSegs (List.replicate m ['.', '.'] ++ t)).isEmpty = false := by
    cases hj : joinSegs (List.replicate m ['.', '.'] ++ t) with
    | nil => exact absurd hj hrelne
    | cons a as => rfl
  obtain ⟨ch, hch, hch2⟩ := joinSegs_dots_head m t ht hne
  have habs : isAbsChars (joinSegs (List.replicate m ['.', '.'] ++ t)) = false := by
    unfold isAbsChars
    rw [hch]
    simp [hch2]
  obtain ⟨cl, hcl, hcl2⟩ := joinSegs_getLast_ne_slash _ hne (dots_segs_facts m t ht)
  have htrail : decide ((joinSegs (List.replicate m ['.', '.'] ++ t)).getLast? = some '/')
      = false := by
    rw [hcl]
    simp [hcl2]
  unfold posixNormalizeChars
  rw [if_neg (by rw [hempty]; exact Bool.false_ne_true)]
  dsimp only
  rw [habs]
  simp only [Bool.not_false]
  rw [split_joinSegs_dots m t ht hne]
  rw [normSegs_dots_clean m t (fun s hs => (ht s hs).1)]
  rw [hempty, htrail]
  simp only [Bool.false_and, Bool.and_false, Bool.false_eq_true, if_false]

/-- Key fixpoint fact for C9: a non-empty path of the shape
dotdot-segments-then-clean-segments, exactly what path.posix.relative
emits, is left unchanged by makeUnixStylePath. -/
theorem makeUnix_rel_fix (m : Nat) (t : List (List Char))
    (ht : ∀ s ∈ t, cleanSeg s ∧ '/' ∉ s)
    (hne : List.replicate m ['.', '.'] ++ t ≠ []) :
    makeUnixStylePathChars (joinSegs (List.replicate m ['.', '.'] ++ t))
      = joinSegs (List.replicate m ['.', '.'] ++ t) := by
  unfold makeUnixStylePathChars posixJoinChars
  rw [split_joinSegs_dots m t ht hne]
  rw [List.filter_eq_self.mpr (by
    intro s hs
    cases hs' : s with
    | nil => exact absurd hs' (dots_segs_facts m t ht s hs).1
    | cons a as => rfl)]
  cases hsegs : List.replicate m ['.', '.'] ++ t with
  | nil => exact absurd hsegs hne
  | cons s0 rest =>
    dsimp only
    rw [← hsegs]
    exact posixNormalize_rel_fix m t ht hne

theorem joinSegs_dots_nonabs (m : Nat) (t : List (List Char))
    (ht : ∀ s ∈ t, cleanSeg s ∧ '/' ∉ s)
    (hne : List.replicate m ['.', '.'] ++ t ≠ []) :
    isAbsChars (joinSegs (List.replicate m ['.', '.'] ++ t)) = false := by
  obtain ⟨ch, hch, hch2⟩ := joinSegs_dots_head m t ht hne
  unfold isAbsChars
  rw [hch]
  simp [hch2]

/-- Key resolution fact for C9: resolving the relative path emitted by
path.posix.relative against the same working directory recovers the resolved
segments of the original target. -/
theorem resolveSegs_rel (root : List Char) (habs : isAbsChars root = true)
    (cp f t : List (List Char))
    (hR : resolveSegs root root = cp ++ f)
    (hf : ∀ s ∈ f, cleanSeg s) (ht : ∀ s ∈ t, cleanSeg s ∧ '/' ∉ s)
    (hne : List.replicate f.length ['.', '.'] ++ t ≠ []) :
    resolveSegs root (joinSegs (List.replicate f.length ['.', '.'] ++ t)) = cp ++ t := by
  have hR0 : normAcc false [] (splitOnPred (fun c => decide (c = '/')) root)
      = f.reverse ++ cp.reverse := by
    rw [resolveSegs_of_abs root root habs] at hR
    unfold normSegs at hR
    rw [List.reverse_eq_iff] at hR
    rw [hR, List.reverse_append]
  rw [resolveSegs_of_nonabs root _ (joinSegs_dots_nonabs f.length t ht hne)]
  unfold normSegs
  rw [splitOnPred_append_sep _ '/' (by decide) root _]
  rw [split_joinSegs_dots f.length t ht hne]
  rw [normAcc_append, hR0, normAcc_append]
  rw [show (f.length : Nat) = f.reverse.length from (List.length_reverse f).symm]
  rw [normAcc_pop f.reverse cp.reverse (fun s hs => hf s (List.mem_reverse.mp hs))]
  rw [normAcc_clean_push false t cp.reverse (fun s hs => (ht s hs).1)]
  rw [List.reverse_append, List.reverse_reverse, List.reverse_reverse]

/-- The single-dot output of the normalizer is a fixpoint of the per-entry
rewrite when the working directory equals the (absolute) sources root. -/
theorem sourceEntryRewrite_dot_fix (root : String) (rr lr : Option String)
    (habs : isAbsChars root.data = true)
    (hroots : (truthyStr rr && truthyStr lr) = false) :
    sourceEntryRewrite root root rr lr "." = "." := by
  have hrootdot : ¬(root.data = String.data ".") := by
    intro h
    rw [h] at habs
    exact absurd habs (by decide)
  have hrel2 : posixRelativeChars root.data root.data (String.data ".") = [] := by
    unfold posixRelativeChars
    rw [if_neg hrootdot]
    dsimp only
    rw [if_pos (show resolveSegs root.data root.data
      = resolveSegs root.data (String.data ".") from (resolveSegs_dot root.data habs).symm)]
  unfold sourceEntryRewrite updateSourceMapPath
  rw [if_neg (by decide : ¬(isRemoteTest "." = true))]
  dsimp only
  rw [hroots]
  simp only [Bool.false_eq_true, if_false]
  rw [hrel2]
  decide

/-- A relative path of the canonical dotdots-then-clean shape is a fixpoint
of the per-entry rewrite when the working directory equals the (absolute)
sources root and the packager roots are not both truthy. -/
theorem sourceEntryRewrite_rel_fix (root : String) (rr lr : Option String)
    (habs : isAbsChars root.data = true)
    (hroots : (truthyStr rr && truthyStr lr) = false)
    (cp f t : List (List Char))
    (hR : resolveSegs root.data root.data = cp ++ f)
    (hf : ∀ q ∈ f, cleanSeg q) (ht : ∀ q ∈ t, cleanSeg q ∧ '/' ∉ q)
    (hne : List.replicate f.length ['.', '.'] ++ t ≠ [])
    (hRT : resolveSegs root.data root.data ≠ cp ++ t)
    (hstrip : stripCommon (resolveSegs root.data root.data) (cp ++ t) = (f, t)) :
    sourceEntryRewrite root root rr lr
        (List.asString (joinSegs (List.replicate f.length ['.', '.'] ++ t)))
      = List.asString (joinSegs (List.replicate f.length ['.', '.'] ++ t)) := by
  have hfix1 := makeUnix_rel_fix f.length t ht hne
  obtain ⟨ch, hch, hch2⟩ := joinSegs_dots_head f.length t ht hne
  have hroot_ne : ¬(root.data = joinSegs (List.replicate f.length ['.', '.'] ++ t)) := by
    intro h
    unfold isAbsChars at habs
    rw [h, hch] at habs
    exact hch2 (Option.some_inj.mp (of_decide_eq_true habs))
  have hT2 := resolveSegs_rel root.data habs cp f t hR hf ht hne
  have hrem2 : isRemoteTest (List.asString (joinSegs (List.replicate f.length ['.', '.'] ++ t)))
      = false := by
    unfold isRemoteTest
    rw [data_asString]
    exact isRemote_joinSegs_false _ (dots_segs_facts f.length t ht)
  have hrel2 : posixRelativeChars root.data root.data
      (joinSegs (List.replicate f.length ['.', '.'] ++ t))
      = joinSegs (List.replicate f.length ['.', '.'] ++ t) := by
    unfold posixRelativeChars
    rw [if_neg hroot_ne]
    dsimp only
    rw [hT2]
    rw [if_neg hRT]
    rw [hstrip]
  unfold sourceEntryRewrite updateSourceMapPath
  rw [if_neg (by rw [hrem2]; exact Bool.false_ne_true)]
  dsimp only
  rw [hroots]
  simp only [Bool.false_eq_true, if_false]
  rw [data_asString, hrel2, hfix1]

/-- Idempotence of the per-entry rewrite when the working directory equals
the (absolute) sources root and the packager roots are not both truthy. -/
theorem sourceEntryRewrite_idem (root : String) (rr lr : Option String)
    (habs : isAbsChars root.data = true)
    (hroots : (truthyStr rr && truthyStr lr) = false) (s : String) :
    sourceEntryRewrite root root rr lr (sourceEntryRewrite root root rr lr s)
      = sourceEntryRewrite root root rr lr s := by
  by_cases hrem : isRemoteTest s = true
  · have h1 : sourceEntryRewrite root root rr lr s = s := by
      unfold sourceEntryRewrite
      rw [if_pos hrem]
    rw [h1]
    exact h1
  · have h1 : sourceEntryRewrite root root rr lr s
        = List.asString (makeUnixStylePathChars
            (posixRelativeChars root.data root.data s.data)) := by
      unfold sourceEntryRewrite updateSourceMapPath
      rw [if_neg hrem]
      dsimp only
      rw [hroots]
      simp only [Bool.false_eq_true, if_false]
    have hdot2 : List.asString (makeUnixStylePathChars []) = "." := by decide
    by_cases hzero : root.data = s.data
    · have hrel : posixRelativeChars root.data root.data s.data = [] := by
        unfold posixRelativeChars
        rw [if_pos hzero]
      rw [h1, hrel, hdot2]
      exact sourceEntryRewrite_dot_fix root rr lr habs hroots
    · by_cases heq2 : resolveSegs root.data root.data = resolveSegs root.data s.data
      · have hrel : posixRelativeChars root.data root.data s.data = [] := by
          unfold posixRelativeChars
          rw [if_neg hzero]
          dsimp only
          rw [if_pos heq2]
        rw [h1, hrel, hdot2]
        exact sourceEntryRewrite_dot_fix root rr lr habs hroots
      · obtain ⟨cp, hcp1, hcp2⟩ := stripCommon_spec (resolveSegs root.data root.data)
          (resolveSegs root.data s.data)
        have hf : ∀ q ∈ (stripCommon (resolveSegs root.data root.data)
            (resolveSegs root.data s.data)).1, cleanSeg q := by
          intro q hq
          exact (resolveSegs_clean root.data root.data q
            (by rw [hcp1]; exact List.mem_append_right _ hq)).1
        have ht : ∀ q ∈ (stripCommon (resolveSegs root.data root.data)
            (resolveSegs root.data s.data)).2, cleanSeg q ∧ '/' ∉ q := by
          intro q hq
          exact resolveSegs_clean root.data s.data q
            (by rw [hcp2]; exact List.mem_append_right _ hq)
        have hsegs_ne : List.replicate (stripCommon (resolveSegs root.data root.data)
              (resolveSegs root.data s.data)).1.length ['.', '.']
            ++ (stripCommon (resolveSegs root.data root.data)
              (resolveSegs root.data s.data)).2 ≠ [] := by
          intro h
          rcases List.append_eq_nil.mp h with ⟨h1', h2'⟩
          have hlen := congrArg List.length h1'
          rw [List.length_replicate, List.length_nil] at hlen
          exact stripCommon_ne _ _ heq2 ⟨List.length_eq_zero.mp hlen, h2'⟩
        have hrel : posixRelativeChars root.data root.data s.data
            = joinSegs (List.replicate (stripCommon (resolveSegs root.data root.data)
                  (resolveSegs root.data s.data)).1.length ['.', '.']
                ++ (stripCommon (resolveSegs root.data root.data)
                  (resolveSegs root.data s.data)).2) := by
          unfold posixRelativeChars
          rw [if_neg hzero]
          dsimp only
          rw [if_neg heq2]
        have hRT : resolveSegs root.data root.data
            ≠ cp ++ (stripCommon (resolveSegs root.data root.data)
                (resolveSegs root.data s.data)).2 := by
          intro h
          rw [← hcp2] at h
          exact heq2 h
        have hstrip : stripCommon (resolveSegs root.data root.data)
              (cp ++ (stripCommon (resolveSegs root.data root.data)
                (resolveSegs root.data s.data)).2)
            = ((stripCommon (resolveSegs root.data root.data)
                (resolveSegs root.data s.data)).1,
              (stripCommon (resolveSegs root.data root.data)
                (resolveSegs root.data s.data)).2) := by
          rw [← hcp2]
        have hfix1 := makeUnix_rel_fix (stripCommon (resolveSegs root.data root.data)
            (resolveSegs root.data s.data)).1.length
          (stripCommon (resolveSegs root.data root.data) (resolveSegs root.data s.data)).2
          ht hsegs_ne
        rw [h1, hrel, hfix1]
        exact sourceEntryRewrite_rel_fix root rr lr habs hroots cp _ _ hcp1 hf ht hsegs_ne
          hRT hstrip

theorem withSources_self (d : SMapDoc) : d.withSources d.sources = d := by
  cases d
  rfl

/-- Evaluation of the document rewrite on a flat (non-sectioned) document:
the flatten collaborator is bypassed and every source entry is rewritten. -/
theorem updateSourceMapDoc_flat_eval (flatten : SMapDoc → SMapDoc)
    (cwd scriptPath rootp : String) (rr lr : Option String) (d : SMapDoc)
    (hsec : d.sections = none) :
    updateSourceMapDocWith flatten combinatorConvertModel cwd scriptPath rootp rr lr d
      = (((d.withSources (Option.map
            (List.map (sourceEntryRewrite cwd rootp rr lr)) d.sources)).withSourcesContent
          none).withSourceRoot (some "")).withFile (some scriptPath) := by
  unfold updateSourceMapDocWith
  rw [hsec]
  dsimp only [combinatorConvertModel]
  cases hsrc : d.sources with
  | none =>
    dsimp only [Option.map]
    rw [show d.withSources none = d from by rw [← hsrc]; exact withSources_self d]
  | some srcs =>
    dsimp only [Option.map]

/-- Claim C9 (corrected).  On a flat (non-sectioned) map document without
sourcesContent, the document rewrite of updateSourceMapFile is idempotent on
the sources, file and sourceRoot fields PROVIDED the process working
directory equals the (absolute) sourcesRootPath and the packager roots are
not both truthy: path.relative resolves its arguments against process.cwd(),
so the claim's unconditional idempotence fails whenever cwd differs from
sourcesRootPath (see the counterexample), but holds under these conditions
for every flatten collaborator, with SourceMapsCombinator.convert modelled
per the spec as the identity on the flat document model. -/
theorem updateSourceMapDoc_idempotent_at_cwd_root
    (flatten : SMapDoc → SMapDoc) (root scriptPath : String) (rr lr : Option String)
    (d : SMapDoc) (habs : isAbsChars root.data = true)
    (hroots : (truthyStr rr && truthyStr lr) = false)
    (hsec : d.sections = none) (hsc : d.sourcesContent = none) :
    (updateSourceMapDocWith flatten combinatorConvertModel root scriptPath root rr lr
          (updateSourceMapDocWith flatten combinatorConvertModel root scriptPath root rr lr
            d)).sources
      = (updateSourceMapDocWith flatten combinatorConvertModel root scriptPath root rr lr
          d).sources
    ∧ (updateSourceMapDocWith flatten combinatorConvertModel root scriptPath root rr lr
          (updateSourceMapDocWith flatten combinatorConvertModel root scriptPath root rr lr
            d)).file
      = (updateSourceMapDocWith flatten combinatorConvertModel root scriptPath root rr lr
          d).file
    ∧ (updateSourceMapDocWith flatten combinatorConvertModel root scriptPath root rr lr
          (updateSourceMapDocWith flatten combinatorConvertModel root scriptPath root rr lr
            d)).sourceRoot
      = (updateSourceMapDocWith flatten combinatorConvertModel root scriptPath root rr lr
          d).sourceRoot := by
  have h1 := updateSourceMapDoc_flat_eval flatten root scriptPath root rr lr d hsec
  have hA := finalUpdates_fields (d.withSources (Option.map
    (List.map (sourceEntryRewrite root root rr lr)) d.sources)) scriptPath
  have hW := withSources_fields d (Option.map
    (List.map (sourceEntryRewrite root root rr lr)) d.sources)
  have hAsec : (updateSourceMapDocWith flatten combinatorConvertModel root scriptPath root rr lr
      d).sections = none := by
    rw [h1, hA.2.2.2.2, hW.2, hsec]
  have hAsrc : (updateSourceMapDocWith flatten combinatorConvertModel root scriptPath root rr lr
      d).sources = Option.map (List.map (sourceEntryRewrite root root rr lr)) d.sources := by
    rw [h1, hA.2.2.2.1, hW.1]
  have h2 := updateSourceMapDoc_flat_eval flatten root scriptPath root rr lr
    (updateSourceMapDocWith flatten combinatorConvertModel root scriptPath root rr lr d) hAsec
  have hB := finalUpdates_fields ((updateSourceMapDocWith flatten combinatorConvertModel root
      scriptPath root rr lr d).withSources (Option.map
    (List.map (sourceEntryRewrite root root rr lr))
    (updateSourceMapDocWith flatten combinatorConvertModel root scriptPath root rr lr
      d).sources)) scriptPath
  have hW2 := withSources_fields (updateSourceMapDocWith flatten combinatorConvertModel root
      scriptPath root rr lr d) (Option.map
    (List.map (sourceEntryRewrite root root rr lr))
    (updateSourceMapDocWith flatten combinatorConvertModel root scriptPath root rr lr
      d).sources)
  refine ⟨?_, ?_, ?_⟩
  · rw [h2, hB.2.2.2.1, hW2.1, hAsrc]
    cases hsrc : d.sources with
    | none => rfl
    | some srcs =>
      dsimp only [Option.map]
      rw [List.map_map]
      refine congrArg some (List.map_congr_left ?_)
      intro a _
      exact sourceEntryRewrite_idem root rr lr habs hroots a
  · rw [h2, hB.2.2.1, h1, hA.2.2.1]
  · rw [h2, hB.2.1, h1, hA.2.1]

/-- Witness for C9: a concrete flat document with an absolute, a remote and
an already-relative source, rewritten twice with cwd equal to the sources
root and no packager roots. -/
theorem updateSourceMapDoc_idempotent_at_cwd_root_witness :
    isAbsChars (String.data "/proj") = true
    ∧ (truthyStr none && truthyStr none) = false
    ∧ (SMapDoc.mk none none none (some ["/proj/sub/a.js", "webpack://x/y.js", "../up/b.js"])
        none none none none).sections = none
    ∧ (SMapDoc.mk none none none (some ["/proj/sub/a.js", "webpack://x/y.js", "../up/b.js"])
        none none none none).sourcesContent = none
    ∧ ((updateSourceMapDocWith id combinatorConvertModel "/proj" "main.bundle" "/proj" none none
          (updateSourceMapDocWith id combinatorConvertModel "/proj" "main.bundle" "/proj" none
            none (SMapDoc.mk none none none
              (some ["/proj/sub/a.js", "webpack://x/y.js", "../up/b.js"])
              none none none none))).sources
        = (updateSourceMapDocWith id combinatorConvertModel "/proj" "main.bundle" "/proj" none
            none (SMapDoc.mk none none none
              (some ["/proj/sub/a.js", "webpack://x/y.js", "../up/b.js"])
              none none none none)).sources
      ∧ (updateSourceMapDocWith id combinatorConvertModel "/proj" "main.bundle" "/proj" none none
          (updateSourceMapDocWith id combinatorConvertModel "/proj" "main.bundle" "/proj" none
            none (SMapDoc.mk none none none
              (some ["/proj/sub/a.js", "webpack://x/y.js", "../up/b.js"])
              none none none none))).file
        = (updateSourceMapDocWith id combinatorConvertModel "/proj" "main.bundle" "/proj" none
            none (SMapDoc.mk none none none
              (some ["/proj/sub/a.js", "webpack://x/y.js", "../up/b.js"])
              none none none none)).file
      ∧ (updateSourceMapDocWith id combinatorConvertModel "/proj" "main.bundle" "/proj" none none
          (updateSourceMapDocWith id combinatorConvertModel "/proj" "main.bundle" "/proj" none
            none (SMapDoc.mk none none none
              (some ["/proj/sub/a.js", "webpack://x/y.js", "../up/b.js"])
              none none none none))).sourceRoot
        = (updateSourceMapDocWith id combinatorConvertModel "/proj" "main.bundle" "/proj" none
            none (SMapDoc.mk none none none
              (some ["/proj/sub/a.js", "webpack://x/y.js", "../up/b.js"])
              none none none none)).sourceRoot) :=
  ⟨by decide, rfl, rfl, rfl,
    updateSourceMapDoc_idempotent_at_cwd_root id "/proj" "main.bundle" none none
      (SMapDoc.mk none none none (some ["/proj/sub/a.js", "webpack://x/y.js", "../up/b.js"])
        none none none none) (by decide) rfl rfl rfl⟩

/-- Counterexample to claim C9 as stated.  With process working directory
/w and sourcesRootPath /proj, the first pass turns the source /proj/a.js
into a.js, but the second pass resolves the now-relative a.js against the
working directory /w and produces ../w/a.js: the sources of the two passes
differ, refuting unconditional idempotence on flat documents. -/
theorem updateSourceMapDoc_not_idempotent_cex :
    (SMapDoc.mk none none none (some ["/proj/a.js"]) none none none none).sections = none
    ∧ (SMapDoc.mk none none none (some ["/proj/a.js"]) none none none none).sourcesContent
      = none
    ∧ (updateSourceMapDocWith id combinatorConvertModel "/w" "main.bundle" "/proj" none none
        (SMapDoc.mk none none none (some ["/proj/a.js"]) none none none none)).sources
      = some ["a.js"]
    ∧ (updateSourceMapDocWith id combinatorConvertModel "/w" "main.bundle" "/proj" none none
        (updateSourceMapDocWith id combinatorConvertModel "/w" "main.bundle" "/proj" none none
          (SMapDoc.mk none none none (some ["/proj/a.js"]) none none none none))).sources
      = some ["../w/a.js"]
    ∧ some ["../w/a.js"] ≠ some ["a.js"] := by
  refine ⟨rfl, rfl, by decide, by decide, by decide⟩
